import Mathlib

/-!
Verification development for the iterated prisoner's dilemma engine
(`prisoners_dilemma.pd_core` and `prisoners_dilemma.strategies`).

The Python sources are shallowly embedded: Python's `random.Random` is a
stream of rational draws together with a position, floats become rationals,
mutation becomes explicit state passing, exceptions become `Except`, and the
(possibly probabilistically-terminated) match loop takes explicit fuel.
Seeding of `random.Random(seed)` is modelled by an arbitrary function
`seedStream : ℤ → ℕ → ℚ` giving, for every seed, the deterministic stream of
draws it produces; OS entropy for unseeded generators is an arbitrary stream.
-/

namespace PD

/-- Model of `random.Random`: a deterministic stream of draws plus a cursor.
`random()` returns the current draw and advances the cursor. -/
@[ext]
structure RNG where
  stream : ℕ → ℚ
  pos : ℕ

/-- `rng.random()`. -/
def RNG.random (r : RNG) : ℚ × RNG :=
  (r.stream r.pos, ⟨r.stream, r.pos + 1⟩)

/-- Actions are the Python strings `"C"` / `"D"` (`Action = str`). -/
abbrev Action := String

/-- `ACTIONS = ("C", "D")` from `game.py`. -/
def ACTIONS : List Action := [("C"), ("D")]

/-- `PayoffMatrix` dataclass from `game.py` (floats as rationals). -/
structure PayoffMatrix where
  temptation : ℚ := 5
  reward : ℚ := 3
  punishment : ℚ := 1
  sucker : ℚ := 0
deriving DecidableEq

/-- `PayoffMatrix.payoff`: raises `ValueError` on non-actions, else the
resolution table. -/
def PayoffMatrix.payoff (m : PayoffMatrix) (a b : Action) : Except String (ℚ × ℚ) :=
  if a ∉ ACTIONS ∨ b ∉ ACTIONS then
    .error ("Actions must be C or D")
  else if a = ("C") ∧ b = ("C") then
    .ok (m.reward, m.reward)
  else if a = ("C") ∧ b = ("D") then
    .ok (m.sucker, m.temptation)
  else if a = ("D") ∧ b = ("C") then
    .ok (m.temptation, m.sucker)
  else
    .ok (m.punishment, m.punishment)

/-- `MatchLog` dataclass from `game.py`. -/
structure MatchLog where
  actions_a : List Action
  actions_b : List Action
  payoff_a : List ℚ
  payoff_b : List ℚ
deriving DecidableEq

/-- `MatchLog.append`. -/
def MatchLog.append (l : MatchLog) (a b : Action) (pa pb : ℚ) : MatchLog :=
  ⟨l.actions_a ++ [a], l.actions_b ++ [b], l.payoff_a ++ [pa], l.payoff_b ++ [pb]⟩

/-- `MatchLog.rounds` property: `len(self.actions_a)`. -/
def MatchLog.rounds (l : MatchLog) : ℕ :=
  l.actions_a.length

/-- `MatchLog.cooperation_rate_a`: `count / rounds if rounds else 0.0`. -/
def MatchLog.cooperation_rate_a (l : MatchLog) : ℚ :=
  if l.rounds ≠ 0 then (l.actions_a.count ("C") : ℚ) / (l.rounds : ℚ) else 0

/-- `MatchLog.cooperation_rate_b`. -/
def MatchLog.cooperation_rate_b (l : MatchLog) : ℚ :=
  if l.rounds ≠ 0 then (l.actions_b.count ("C") : ℚ) / (l.rounds : ℚ) else 0

/-- `MatchOutcome` dataclass from `game.py`. -/
structure MatchOutcome where
  total_payoff_a : ℚ
  total_payoff_b : ℚ
  mean_payoff_a : ℚ
  mean_payoff_b : ℚ
  cooperation_rate_a : ℚ
  cooperation_rate_b : ℚ
deriving DecidableEq

/-- `IteratedMatch._build_outcome`: `rounds = log.rounds or 1`. -/
def buildOutcome (log : MatchLog) : MatchOutcome :=
  let total_payoff_a := log.payoff_a.sum
  let total_payoff_b := log.payoff_b.sum
  let rounds : ℕ := if log.rounds = 0 then 1 else log.rounds
  ⟨total_payoff_a, total_payoff_b, total_payoff_a / (rounds : ℚ),
    total_payoff_b / (rounds : ℚ), log.cooperation_rate_a, log.cooperation_rate_b⟩

/-- `flip` from `noise.py`. -/
def flipAction (action : Action) : Action :=
  if action = ("C") then ("D") else ("C")

/-- `Noise` dataclass from `noise.py`. -/
structure Noise where
  epsilon : ℚ := 0
deriving DecidableEq

/-- `Noise.apply`: no draw at `epsilon <= 0`; otherwise one draw, flipping the
action when the draw is `<= epsilon`. -/
def Noise.apply (n : Noise) (action : Action) (rng : RNG) : Action × RNG :=
  if n.epsilon ≤ 0 then (action, rng)
  else
    let u := rng.random
    if u.1 ≤ n.epsilon then (flipAction action, u.2) else (action, u.2)

/-- The `Strategy` protocol from `strategy.py`, over an explicit state type:
`reset`, `first_move(rng)` and `next_move(my_last, opp_last, rng)`, with the
rng threaded explicitly. -/
structure Strategy (σ : Type) where
  name : String
  reset : σ → σ
  firstMove : σ → RNG → Action × σ × RNG
  nextMove : σ → Option Action → Option Action → RNG → Action × σ × RNG

/-- `random.Random(seed)` / `make_rng`: seeded generators start on the stream
determined by the seed, unseeded ones on an entropy stream. -/
def mkRng (seedStream : ℤ → ℕ → ℚ) (entropy : ℕ → ℚ) : Option ℤ → RNG
  | some s => ⟨seedStream s, 0⟩
  | none => ⟨entropy, 0⟩

/-- `Player` dataclass from `player.py`. -/
@[ext]
structure Player (σ : Type) where
  strat : Strategy σ
  state : σ
  name : Option String := none
  seed : Option ℤ := none
  rng : RNG

/-- `Player.display_name`: `self.name or self.strategy.name` (a `None` or
empty-string `name` is falsy). -/
def Player.displayName (p : Player σ) : String :=
  match p.name with
  | some s => if s = ("") then p.strat.name else s
  | none => p.strat.name

/-- `Player.reset`: reset the strategy and, only when a seed was supplied,
re-seed the rng. -/
def Player.reset (seedStream : ℤ → ℕ → ℚ) (p : Player σ) : Player σ :=
  { p with
    state := p.strat.reset p.state
    rng := match p.seed with
      | some s => ⟨seedStream s, 0⟩
      | none => p.rng }

/-- `Player.first_move`. -/
def Player.firstMove (p : Player σ) : Action × Player σ :=
  let r := p.strat.firstMove p.state p.rng
  (r.1, { p with state := r.2.1, rng := r.2.2 })

/-- `Player.next_move`. -/
def Player.nextMove (p : Player σ) (myLast oppLast : Option Action) : Action × Player σ :=
  let r := p.strat.nextMove p.state myLast oppLast p.rng
  (r.1, { p with state := r.2.1, rng := r.2.2 })

/-- `IteratedMatch._apply_noise`: no-op without noise, else `Noise.apply`
with the match's own rng. -/
def applyNoiseM (noise : Option Noise) (action : Action) (rng : RNG) : Action × RNG :=
  match noise with
  | none => (action, rng)
  | some n => n.apply action rng

/-- The first guard of `IteratedMatch._continue`:
`self.n_rounds is not None and round_index >= self.n_rounds`. -/
def nRoundsExceeded (nRounds : Option ℕ) (roundIndex : ℕ) : Bool :=
  match nRounds with
  | some n => decide (roundIndex ≥ n)
  | none => false

/-- `IteratedMatch._continue`, threading the match rng (one draw exactly in
the probabilistic branch). `(self.n_rounds or 0)` is `getD 0`. -/
def contStep (nRounds : Option ℕ) (contProb : Option ℚ) (roundIndex : ℕ) (rng : RNG) :
    Bool × RNG :=
  if nRoundsExceeded nRounds roundIndex then (false, rng)
  else if roundIndex = 0 then (true, rng)
  else
    match contProb with
    | none => (decide (roundIndex < nRounds.getD 0), rng)
    | some c =>
      let u := rng.random
      (decide (u.1 < c), u.2)

/-- The mutable state of the `while` loop in `IteratedMatch.play`. -/
@[ext]
structure PlayState (σa σb : Type) where
  pa : Player σa
  pb : Player σb
  rng : RNG
  log : MatchLog
  aPrev : Option Action
  bPrev : Option Action
  idx : ℕ

/-- The round-0 / round-`≥ 1` dispatch of the loop body: `first_move()` on
round 0, `next_move(my_prev, opp_prev)` afterwards. -/
def moveOf (p : Player σ) (idx : ℕ) (myPrev oppPrev : Option Action) : Action × Player σ :=
  if idx = 0 then p.firstMove else p.nextMove myPrev oppPrev

/-- The `while self._continue(round_index)` loop of `IteratedMatch.play`,
with explicit fuel (`none` models a run that has not terminated within the
fuel; the probabilistic termination mode admits unbounded runs). -/
def playAux (pm : PayoffMatrix) (noise : Option Noise) (nRounds : Option ℕ)
    (contProb : Option ℚ) : ℕ → PlayState σa σb →
    Option (Except String (MatchLog × PlayState σa σb))
  | 0, _ => none
  | fuel + 1, s =>
    let c := contStep nRounds contProb s.idx s.rng
    if c.1 then
      let am := moveOf s.pa s.idx s.aPrev s.bPrev
      let bm := moveOf s.pb s.idx s.bPrev s.aPrev
      let ae := applyNoiseM noise am.1 c.2
      let be := applyNoiseM noise bm.1 ae.2
      match pm.payoff ae.1 be.1 with
      | .error e => some (.error e)
      | .ok p =>
        playAux pm noise nRounds contProb fuel
          ⟨am.2, bm.2, be.2, s.log.append ae.1 be.1 p.1 p.2, some ae.1, some be.1, s.idx + 1⟩
    else some (.ok (s.log, { s with rng := c.2 }))

/-- `IteratedMatch` (its `__init__`-validated fields). -/
@[ext]
structure IteratedMatch (σa σb : Type) where
  playerA : Player σa
  playerB : Player σb
  payoffMatrix : PayoffMatrix
  noise : Option Noise
  nRounds : Option ℕ
  contProb : Option ℚ
  rng : RNG

/-- `IteratedMatch.__init__`: validates the termination policy and builds the
match (`payoff_matrix or PayoffMatrix()` defaults, `make_rng(seed)`). -/
def IteratedMatch.init (pa : Player σa) (pb : Player σb) (pm : Option PayoffMatrix)
    (noise : Option Noise) (nRounds : Option ℕ) (contProb : Option ℚ) (seed : Option ℤ)
    (seedStream : ℤ → ℕ → ℚ) (entropy : ℕ → ℚ) : Except String (IteratedMatch σa σb) :=
  if (match contProb with
      | some c => decide (¬ (0 ≤ c ∧ c < 1))
      | none => false) then
    .error ("continuation_prob must be in [0, 1)")
  else if nRounds = none ∧ contProb = none then
    .error ("either n_rounds or continuation_prob must be provided")
  else
    .ok ⟨pa, pb, pm.getD {}, noise, nRounds, contProb, mkRng seedStream entropy seed⟩

/-- `IteratedMatch.play`: reset both players, run the loop, build the
outcome.  The returned match is the mutated `self` (players and match rng
advanced). -/
def IteratedMatch.play (m : IteratedMatch σa σb) (seedStream : ℤ → ℕ → ℚ) (fuel : ℕ) :
    Option (Except String (MatchOutcome × MatchLog × IteratedMatch σa σb)) :=
  let pa := m.playerA.reset seedStream
  let pb := m.playerB.reset seedStream
  match playAux m.payoffMatrix m.noise m.nRounds m.contProb fuel
      ⟨pa, pb, m.rng, ⟨[], [], [], []⟩, none, none, 0⟩ with
  | none => none
  | some (.error e) => some (.error e)
  | some (.ok r) =>
    some (.ok (buildOutcome r.1, r.1,
      { m with playerA := r.2.pa, playerB := r.2.pb, rng := r.2.rng }))

/-- Modelled from the spec: the variant of the `play` loop whose round-`≥ 1`
`next_move` calls receive the last **post-noise** actions recorded in the
MatchLog (`my_last_effective_action`, `opp_last_effective_action`) instead of
the threaded `a_prev` / `b_prev` variables.  Comparing it with `playAux`
settles how the feedback is wired. -/
def playAuxPost (pm : PayoffMatrix) (noise : Option Noise) (nRounds : Option ℕ)
    (contProb : Option ℚ) : ℕ → PlayState σa σb →
    Option (Except String (MatchLog × PlayState σa σb))
  | 0, _ => none
  | fuel + 1, s =>
    let c := contStep nRounds contProb s.idx s.rng
    if c.1 then
      let am := moveOf s.pa s.idx s.log.actions_a.getLast? s.log.actions_b.getLast?
      let bm := moveOf s.pb s.idx s.log.actions_b.getLast? s.log.actions_a.getLast?
      let ae := applyNoiseM noise am.1 c.2
      let be := applyNoiseM noise bm.1 ae.2
      match pm.payoff ae.1 be.1 with
      | .error e => some (.error e)
      | .ok p =>
        playAuxPost pm noise nRounds contProb fuel
          ⟨am.2, bm.2, be.2, s.log.append ae.1 be.1 p.1 p.2, some ae.1, some be.1, s.idx + 1⟩
    else some (.ok (s.log, { s with rng := c.2 }))

/-- Modelled from the spec: `IteratedMatch.play` on top of `playAuxPost`. -/
def IteratedMatch.playPost (m : IteratedMatch σa σb) (seedStream : ℤ → ℕ → ℚ) (fuel : ℕ) :
    Option (Except String (MatchOutcome × MatchLog × IteratedMatch σa σb)) :=
  let pa := m.playerA.reset seedStream
  let pb := m.playerB.reset seedStream
  match playAuxPost m.payoffMatrix m.noise m.nRounds m.contProb fuel
      ⟨pa, pb, m.rng, ⟨[], [], [], []⟩, none, none, 0⟩ with
  | none => none
  | some (.error e) => some (.error e)
  | some (.ok r) =>
    some (.ok (buildOutcome r.1, r.1,
      { m with playerA := r.2.pa, playerB := r.2.pb, rng := r.2.rng }))

/-! ### Strategies (`strategies/simple.py`, `strategies/base.py`) -/

/-- `StatelessStrategy.first_move`: delegate to `next_move(None, None, rng)`. -/
def statelessFirstMove (next : σ → Option Action → Option Action → RNG → Action × σ × RNG) :
    σ → RNG → Action × σ × RNG :=
  fun st rng => next st none none rng

/-- `AllCooperate.next_move`. -/
def allCooperateNext : Unit → Option Action → Option Action → RNG → Action × Unit × RNG :=
  fun st _ _ rng => (("C"), st, rng)

/-- `AllCooperate` (name `"ALLC"`, stateless, always returns `"C"`). -/
def allCooperate : Strategy Unit :=
  ⟨("ALLC"), fun st => st, statelessFirstMove allCooperateNext, allCooperateNext⟩

/-- `TitForTat.next_move`: `"C" if opp_last is None else opp_last`. -/
def titForTatNext : Unit → Option Action → Option Action → RNG → Action × Unit × RNG :=
  fun st _ oppLast rng =>
    ((match oppLast with
      | none => ("C")
      | some a => a), st, rng)

/-- `TitForTat` (name `"TFT"`; overrides `first_move` to return `"C"`). -/
def titForTat : Strategy Unit :=
  ⟨("TFT"), fun st => st, fun st rng => (("C"), st, rng), titForTatNext⟩

/-- `GrimTrigger.next_move`: latch `_betrayed` on an observed `"D"`, then
defect whenever latched. -/
def grimTriggerNext : Bool → Option Action → Option Action → RNG → Action × Bool × RNG :=
  fun betrayed _ oppLast rng =>
    let betrayed' := if oppLast = some ("D") then true else betrayed
    ((if betrayed' then ("D") else ("C")), betrayed', rng)

/-- `GrimTrigger` (name `"GRIM"`; `reset` and `first_move` clear `_betrayed`). -/
def grimTrigger : Strategy Bool :=
  ⟨("GRIM"), fun _ => false, fun _ rng => (("C"), false, rng), grimTriggerNext⟩

/-- A sequence of `next_move` calls on a `GrimTrigger` instance: fold the
observations `(my_last, opp_last)` through `grimTriggerNext`, collecting the
returned actions. -/
def grimOutputs (rng : RNG) : Bool → List (Option Action × Option Action) → List Action
  | _, [] => []
  | st, o :: rest =>
    let r := grimTriggerNext st o.1 o.2 rng
    r.1 :: grimOutputs r.2.2 r.2.1 rest

/-! ### Behavioural predicates on embedded strategies -/

/-- The strategy only ever returns the valid actions `"C"` / `"D"`
(every concrete strategy of the repository does). -/
def Strategy.validMoves (S : Strategy σ) : Prop :=
  (∀ st rng, (S.firstMove st rng).1 = ("C") ∨ (S.firstMove st rng).1 = ("D")) ∧
  (∀ st ml ol rng, (S.nextMove st ml ol rng).1 = ("C") ∨ (S.nextMove st ml ol rng).1 = ("D"))

/-- The strategy neither reads nor advances the rng handed to it (all the
deterministic strategies of `strategies/simple.py`). -/
def Strategy.rngFree (S : Strategy σ) : Prop :=
  (∀ st r r', (S.firstMove st r).1 = (S.firstMove st r').1 ∧
    (S.firstMove st r).2.1 = (S.firstMove st r').2.1) ∧
  (∀ st r, (S.firstMove st r).2.2 = r) ∧
  (∀ st ml ol r r', (S.nextMove st ml ol r).1 = (S.nextMove st ml ol r').1 ∧
    (S.nextMove st ml ol r).2.1 = (S.nextMove st ml ol r').2.1) ∧
  (∀ st ml ol r, (S.nextMove st ml ol r).2.2 = r)

/-- `reset` restores one fixed initial state, whatever the current state
(the contract of `Strategy.reset`; true of every strategy in the repo). -/
def Strategy.resetConst (S : Strategy σ) : Prop :=
  ∀ s s', S.reset s = S.reset s'

/-- The noise configuration never consumes a draw: absent, or `epsilon <= 0`
(the `Noise.apply` early return). -/
def noiseInert : Option Noise → Prop
  | none => True
  | some n => n.epsilon ≤ 0

/-- Replace both players' rng states (used to state rng-scoping claims). -/
def IteratedMatch.withPlayerRngs (m : IteratedMatch σa σb) (ra rb : RNG) :
    IteratedMatch σa σb :=
  { m with playerA := { m.playerA with rng := ra }, playerB := { m.playerB with rng := rb } }

/-! ### Tournaments (`tournament.py`) -/

/-- `MatchSummary` dataclass. -/
structure MatchSummary where
  player_a : String
  player_b : String
  outcome : MatchOutcome
deriving DecidableEq

/-- `TournamentResults` dataclass. -/
structure TournamentResults where
  matchList : List MatchSummary
deriving DecidableEq

/-- `scores.setdefault(name, 0.0)` on an insertion-ordered association list
(the model of a Python dict). -/
def lbSetdefault (d : List (String × ℚ)) (k : String) : List (String × ℚ) :=
  if d.any (fun p => p.1 = k) then d else d ++ [(k, 0)]

/-- `scores[name] += x`. -/
def lbAdd (d : List (String × ℚ)) (k : String) (x : ℚ) : List (String × ℚ) :=
  d.map (fun p => if p.1 = k then (p.1, p.2 + x) else p)

/-- One iteration of the `TournamentResults.leaderboard` accumulation. -/
def lbStep (d : List (String × ℚ)) (s : MatchSummary) : List (String × ℚ) :=
  lbAdd (lbAdd (lbSetdefault (lbSetdefault d s.player_a) s.player_b)
    s.player_a s.outcome.mean_payoff_a) s.player_b s.outcome.mean_payoff_b

/-- `TournamentResults.leaderboard`. -/
def TournamentResults.leaderboard (r : TournamentResults) : List (String × ℚ) :=
  r.matchList.foldl lbStep []

/-- `itertools.combinations(players, 2)` over indices: all pairs `(i, j)`
with `i < j < n`, in combinations order.  Python iterates object references,
so pairs of indices into the mutable roster are the faithful reading. -/
def pairsIdx (n : ℕ) : List (ℕ × ℕ) :=
  ((List.range n).map (fun i =>
    (List.range (n - (i + 1))).map (fun k => (i, i + 1 + k)))).flatten

/-- `None if self.seed is None else self.seed + rep`. -/
def repSeed (tseed : Option ℤ) (rep : ℕ) : Option ℤ :=
  tseed.map (fun s => s + (rep : ℤ))

/-- `RoundRobinTournament` fields. -/
structure RoundRobinTournament (σ : Type) where
  players : List (Player σ)
  payoffMatrix : PayoffMatrix
  noise : Option Noise
  nRounds : ℕ
  repetitions : ℕ
  seed : Option ℤ

/-- The inner `for rep in range(self.repetitions)` loop of
`RoundRobinTournament.run`: build an `IteratedMatch` per repetition, play it,
and record one `MatchSummary`; player mutation is threaded. -/
def runReps (seedStream : ℤ → ℕ → ℚ) (entropy : ℕ → ℚ) (pm : PayoffMatrix)
    (noise : Option Noise) (nRounds : ℕ) (tseed : Option ℤ) :
    ℕ → ℕ → Player σ → Player σ → Except String (List MatchSummary × Player σ × Player σ)
  | 0, _, pa, pb => .ok ([], pa, pb)
  | k + 1, rep, pa, pb =>
    match IteratedMatch.init pa pb (some pm) noise (some nRounds) none
        (repSeed tseed rep) seedStream entropy with
    | .error e => .error e
    | .ok m =>
      match m.play seedStream (nRounds + 1) with
      | none => .error ("match did not terminate")
      | some (.error e) => .error e
      | some (.ok r) =>
        match runReps seedStream entropy pm noise nRounds tseed k (rep + 1)
            r.2.2.playerA r.2.2.playerB with
        | .error e => .error e
        | .ok rest =>
          .ok (⟨r.2.2.playerA.displayName, r.2.2.playerB.displayName, r.1⟩ :: rest.1,
            rest.2)

/-- The outer `for player_a, player_b in combinations(self.players, 2)` loop,
threading the mutated roster through the index pairs. -/
def runPairs (seedStream : ℤ → ℕ → ℚ) (entropy : ℕ → ℚ) (pm : PayoffMatrix)
    (noise : Option Noise) (nRounds : ℕ) (tseed : Option ℤ) (reps : ℕ) :
    List (ℕ × ℕ) → List (Player σ) → Except String (List MatchSummary × List (Player σ))
  | [], roster => .ok ([], roster)
  | (i, j) :: rest, roster =>
    match roster.get? i, roster.get? j with
    | some pa, some pb =>
      match runReps seedStream entropy pm noise nRounds tseed reps 0 pa pb with
      | .error e => .error e
      | .ok r =>
        match runPairs seedStream entropy pm noise nRounds tseed reps rest
            ((roster.set i r.2.1).set j r.2.2) with
        | .error e => .error e
        | .ok r' => .ok (r.1 ++ r'.1, r'.2)
    | _, _ => .error ("roster index out of range")

/-- `RoundRobinTournament.run`. -/
def RoundRobinTournament.run (t : RoundRobinTournament σ) (seedStream : ℤ → ℕ → ℚ)
    (entropy : ℕ → ℚ) : Except String TournamentResults :=
  match runPairs seedStream entropy t.payoffMatrix t.noise t.nRounds t.seed t.repetitions
      (pairsIdx t.players.length) t.players with
  | .error e => .error e
  | .ok r => .ok ⟨r.1⟩

/-! ### Extraction helpers and concrete configurations for the witnesses and
counterexamples -/

/-- The `MatchLog` of a completed play (a sentinel empty log otherwise). -/
def logOf (x : Option (Except String (MatchOutcome × MatchLog × IteratedMatch σa σb))) :
    MatchLog :=
  match x with
  | some (.ok r) => r.2.1
  | _ => ⟨[], [], [], []⟩

/-- The round count of a completed play. -/
def roundsOf (x : Option (Except String (MatchOutcome × MatchLog × IteratedMatch σa σb))) :
    ℕ :=
  (logOf x).rounds

/-- The mutated match instance after a completed play (the given default
otherwise). -/
def afterPlay (x : Option (Except String (MatchOutcome × MatchLog × IteratedMatch σa σb)))
    (dflt : IteratedMatch σa σb) : IteratedMatch σa σb :=
  match x with
  | some (.ok r) => r.2.2
  | _ => dflt

/-- The outcome of a completed play. -/
def outcomeOf (x : Option (Except String (MatchOutcome × MatchLog × IteratedMatch σa σb))) :
    MatchOutcome :=
  match x with
  | some (.ok r) => r.1
  | _ => buildOutcome ⟨[], [], [], []⟩

/-- Did the play complete normally? -/
def playOk (x : Option (Except String (MatchOutcome × MatchLog × IteratedMatch σa σb))) :
    Bool :=
  match x with
  | some (.ok _) => true
  | _ => false

/-- Did an `Except` computation succeed? -/
def exceptOk : Except String α → Bool
  | .ok _ => true
  | .error _ => false

/-- The leaderboard key list of a tournament run (sentinel on failure). -/
def lbKeys (x : Except String TournamentResults) : List String :=
  match x with
  | .ok r => r.leaderboard.map Prod.fst
  | .error _ => [("run failed")]

/-- The number of match summaries of a tournament run. -/
def summaryCount (x : Except String TournamentResults) : ℕ :=
  match x with
  | .ok r => r.matchList.length
  | .error _ => 0

/-- `1/2` as a kernel-reducible raw rational. -/
def qHalf : ℚ := ⟨1, 2, by decide, by decide⟩

/-- `1/4` as a kernel-reducible raw rational. -/
def qQuarter : ℚ := ⟨1, 4, by decide, by decide⟩

/-- `3/4` as a kernel-reducible raw rational. -/
def qThreeQuarters : ℚ := ⟨3, 4, by decide, by decide⟩

/-- `1/10` as a kernel-reducible raw rational. -/
def qTenth : ℚ := ⟨1, 10, by decide, by decide⟩

/-- A concrete seed-to-stream function: every seeded generator draws a
constant `0`. -/
def ssZero : ℤ → ℕ → ℚ := fun _ _ => 0

/-- A concrete entropy stream. -/
def entZero : ℕ → ℚ := fun _ => 0

/-- A constant rng stream at cursor `0`. -/
def constRng (q : ℚ) : RNG := ⟨fun _ => q, 0⟩

/-- A seeded `AllCooperate` player. -/
def allCPlayer : Player Unit :=
  ⟨allCooperate, (), none, some 0, constRng 0⟩

/-- An iterated match between two seeded `AllCooperate` players with the given
termination policy, noise and match rng. -/
def mkMatchC (nRounds : Option ℕ) (contProb : Option ℚ) (noise : Option Noise)
    (rng : RNG) : IteratedMatch Unit Unit :=
  ⟨allCPlayer, allCPlayer, {}, noise, nRounds, contProb, rng⟩

/-- Match-rng stream drawing `1/4` then `3/4` forever (first draw flips a
noisy action at `epsilon = 1/2`, the later ones do not). -/
def streamQuarterThen : ℕ → ℚ := fun n => if n = 0 then qQuarter else qThreeQuarters

/-- One-round noisy match used by the reproducibility counterexample. -/
def c2match : IteratedMatch Unit Unit :=
  mkMatchC (some 1) none (some ⟨qHalf⟩) ⟨streamQuarterThen, 0⟩

/-- The same noisy one-round match with an all-`1/4` match stream. -/
def c1matchLow : IteratedMatch Unit Unit :=
  mkMatchC (some 1) none (some ⟨qHalf⟩) (constRng qQuarter)

/-- The same noisy one-round match with an all-`3/4` match stream. -/
def c1matchHigh : IteratedMatch Unit Unit :=
  mkMatchC (some 1) none (some ⟨qHalf⟩) (constRng qThreeQuarters)

/-- A probabilistically-terminated match with both `n_rounds` and
`continuation_prob` supplied. -/
def c3match (nRounds : Option ℕ) (contProb : Option ℚ) : IteratedMatch Unit Unit :=
  mkMatchC nRounds contProb none (constRng qQuarter)

/-- A one-player roster tournament. -/
def t1tournament : RoundRobinTournament Unit :=
  ⟨[allCPlayer], {}, none, 1, 1, none⟩

/-- A two-player roster tournament with named players. -/
def t2tournament : RoundRobinTournament Unit :=
  ⟨[⟨allCooperate, (), some ("P1"), some 0, constRng 0⟩,
    ⟨allCooperate, (), some ("P2"), some 1, constRng 0⟩], {}, none, 2, 1, none⟩

/-! ## Basic lemmas -/

theorem mem_ACTIONS_iff (a : Action) : a ∈ ACTIONS ↔ a = ("C") ∨ a = ("D") := by
  simp [ACTIONS]

theorem payoff_ok_of_valid (m : PayoffMatrix) (a b : Action)
    (ha : a = ("C") ∨ a = ("D")) (hb : b = ("C") ∨ b = ("D")) :
    ∃ p, m.payoff a b = .ok p := by
  rcases ha with rfl | rfl <;> rcases hb with rfl | rfl
  · exact ⟨(m.reward, m.reward), by simp [PayoffMatrix.payoff, ACTIONS]⟩
  · exact ⟨(m.sucker, m.temptation), by simp [PayoffMatrix.payoff, ACTIONS]⟩
  · exact ⟨(m.temptation, m.sucker), by simp [PayoffMatrix.payoff, ACTIONS]⟩
  · exact ⟨(m.punishment, m.punishment), by simp [PayoffMatrix.payoff, ACTIONS]⟩

theorem flipAction_valid (a : Action) :
    flipAction a = ("C") ∨ flipAction a = ("D") := by
  unfold flipAction
  split <;> simp

theorem noiseApply_eq (n : Noise) (a : Action) (r : RNG) :
    n.apply a r = if n.epsilon ≤ 0 then (a, r)
      else if r.stream r.pos ≤ n.epsilon then (flipAction a, ⟨r.stream, r.pos + 1⟩)
      else (a, ⟨r.stream, r.pos + 1⟩) :=
  rfl

theorem applyNoiseM_none (a : Action) (r : RNG) : applyNoiseM none a r = (a, r) :=
  rfl

theorem applyNoiseM_some (n : Noise) (a : Action) (r : RNG) :
    applyNoiseM (some n) a r = n.apply a r :=
  rfl

theorem applyNoiseM_valid (nz : Option Noise) (a : Action) (r : RNG)
    (ha : a = ("C") ∨ a = ("D")) :
    (applyNoiseM nz a r).1 = ("C") ∨ (applyNoiseM nz a r).1 = ("D") := by
  rcases nz with _ | n
  · simpa [applyNoiseM_none]
  · rw [applyNoiseM_some, noiseApply_eq]
    split_ifs
    · simpa
    · exact flipAction_valid a
    · simpa

theorem applyNoiseM_stream (nz : Option Noise) (a : Action) (r : RNG) :
    (applyNoiseM nz a r).2.stream = r.stream := by
  rcases nz with _ | n
  · simp [applyNoiseM_none]
  · rw [applyNoiseM_some, noiseApply_eq]
    split_ifs <;> rfl

theorem applyNoiseM_of_inert (nz : Option Noise) (a : Action) (r : RNG)
    (h : noiseInert nz) : applyNoiseM nz a r = (a, r) := by
  rcases nz with _ | n
  · simp [applyNoiseM_none]
  · simp only [noiseInert] at h
    rw [applyNoiseM_some, noiseApply_eq, if_pos h]

theorem applyNoiseM_pos_of_drawing (nz : Noise) (a : Action) (r : RNG)
    (h : 0 < nz.epsilon) :
    (applyNoiseM (some nz) a r).2.pos = r.pos + 1 := by
  rw [applyNoiseM_some, noiseApply_eq, if_neg (by linarith)]
  split_ifs <;> rfl

theorem moveOf_strat (p : Player σ) (i : ℕ) (ml ol : Option Action) :
    (moveOf p i ml ol).2.strat = p.strat := by
  unfold moveOf Player.firstMove Player.nextMove
  split <;> rfl

theorem moveOf_name (p : Player σ) (i : ℕ) (ml ol : Option Action) :
    (moveOf p i ml ol).2.name = p.name := by
  unfold moveOf Player.firstMove Player.nextMove
  split <;> rfl

theorem moveOf_seed (p : Player σ) (i : ℕ) (ml ol : Option Action) :
    (moveOf p i ml ol).2.seed = p.seed := by
  unfold moveOf Player.firstMove Player.nextMove
  split <;> rfl

theorem moveOf_valid (p : Player σ) (i : ℕ) (ml ol : Option Action)
    (h : p.strat.validMoves) :
    (moveOf p i ml ol).1 = ("C") ∨ (moveOf p i ml ol).1 = ("D") := by
  unfold moveOf Player.firstMove Player.nextMove
  split
  · exact h.1 p.state p.rng
  · exact h.2 p.state ml ol p.rng

/-! ## Invariants of the match loop -/

theorem playAux_pres (pm : PayoffMatrix) (nz : Option Noise) (nR : Option ℕ)
    (cP : Option ℚ) :
    ∀ (fuel : ℕ) (s : PlayState σa σb) (log : MatchLog) (s' : PlayState σa σb),
    playAux pm nz nR cP fuel s = some (.ok (log, s')) →
    s'.pa.strat = s.pa.strat ∧ s'.pa.name = s.pa.name ∧ s'.pa.seed = s.pa.seed ∧
    s'.pb.strat = s.pb.strat ∧ s'.pb.name = s.pb.name ∧ s'.pb.seed = s.pb.seed := by
  intro fuel
  induction fuel with
  | zero =>
    intro s log s' h
    simp [playAux] at h
  | succ n ih =>
    intro s log s' h
    simp only [playAux] at h
    by_cases hc : (contStep nR cP s.idx s.rng).1
    · rw [if_pos hc] at h
      split at h
      · exact absurd h (by simp)
      · have hrec := ih _ _ _ h
        simpa [moveOf_strat, moveOf_name, moveOf_seed] using hrec
    · rw [if_neg hc] at h
      simp only [Option.some.injEq, Except.ok.injEq, Prod.mk.injEq] at h
      obtain ⟨-, hs⟩ := h
      subst hs
      exact ⟨rfl, rfl, rfl, rfl, rfl, rfl⟩

theorem contStep_stream (nR : Option ℕ) (cP : Option ℚ) (i : ℕ) (r : RNG) :
    (contStep nR cP i r).2.stream = r.stream := by
  unfold contStep
  split_ifs
  · rfl
  · rfl
  · cases cP <;> rfl

theorem contStep_none_rng (nR : Option ℕ) (i : ℕ) (r : RNG) :
    (contStep nR none i r).2 = r := by
  unfold contStep
  split_ifs <;> rfl

theorem contStep_true_lt (n : ℕ) (cP : Option ℚ) (i : ℕ) (r : RNG)
    (h : (contStep (some n) cP i r).1 = true) : i < n := by
  by_contra hlt
  have hx : nRoundsExceeded (some n) i = true := by
    simp only [nRoundsExceeded, ge_iff_le, decide_eq_true_eq]
    omega
  rw [contStep.eq_def, if_pos hx] at h
  simp at h

theorem rounds_append (l : MatchLog) (a b : Action) (x y : ℚ) :
    (l.append a b x y).rounds = l.rounds + 1 := by
  simp [MatchLog.append, MatchLog.rounds]

theorem playAux_rng_const (pm : PayoffMatrix) (nz : Option Noise) (nR : Option ℕ)
    (hnz : noiseInert nz) :
    ∀ (fuel : ℕ) (s : PlayState σa σb) (log : MatchLog) (s' : PlayState σa σb),
    playAux pm nz nR none fuel s = some (.ok (log, s')) → s'.rng = s.rng := by
  intro fuel
  induction fuel with
  | zero =>
    intro s log s' h
    simp [playAux] at h
  | succ n ih =>
    intro s log s' h
    simp only [playAux] at h
    by_cases hc : (contStep nR none s.idx s.rng).1
    · rw [if_pos hc] at h
      split at h
      · exact absurd h (by simp)
      · have hrec := ih _ _ _ h
        rw [hrec]
        simp [applyNoiseM_of_inert _ _ _ hnz, contStep_none_rng]
    · rw [if_neg hc] at h
      simp only [Option.some.injEq, Except.ok.injEq, Prod.mk.injEq] at h
      obtain ⟨-, hs⟩ := h
      subst hs
      simp [contStep_none_rng]

theorem playAux_wf (pm : PayoffMatrix) (nz : Option Noise) (nR : Option ℕ)
    (cP : Option ℚ) :
    ∀ (fuel : ℕ) (s : PlayState σa σb) (log : MatchLog) (s' : PlayState σa σb),
    playAux pm nz nR cP fuel s = some (.ok (log, s')) →
    s.log.actions_b.length = s.log.actions_a.length →
    s.log.payoff_a.length = s.log.actions_a.length →
    s.log.payoff_b.length = s.log.actions_a.length →
    log.actions_b.length = log.actions_a.length ∧
      log.payoff_a.length = log.actions_a.length ∧
      log.payoff_b.length = log.actions_a.length := by
  intro fuel
  induction fuel with
  | zero =>
    intro s log s' h
    simp [playAux] at h
  | succ n ih =>
    intro s log s' h h1 h2 h3
    simp only [playAux] at h
    by_cases hc : (contStep nR cP s.idx s.rng).1
    · rw [if_pos hc] at h
      split at h
      · exact absurd h (by simp)
      · exact ih _ _ _ h (by simp [MatchLog.append, h1]) (by simp [MatchLog.append, h2])
          (by simp [MatchLog.append, h3])
    · rw [if_neg hc] at h
      simp only [Option.some.injEq, Except.ok.injEq, Prod.mk.injEq] at h
      obtain ⟨hl, -⟩ := h
      subst hl
      exact ⟨h1, h2, h3⟩

theorem playAux_rounds_le (pm : PayoffMatrix) (nz : Option Noise) (n : ℕ)
    (cP : Option ℚ) :
    ∀ (fuel : ℕ) (s : PlayState σa σb) (log : MatchLog) (s' : PlayState σa σb),
    playAux pm nz (some n) cP fuel s = some (.ok (log, s')) →
    log.rounds ≤ s.log.rounds + (n - s.idx) := by
  intro fuel
  induction fuel with
  | zero =>
    intro s log s' h
    simp [playAux] at h
  | succ k ih =>
    intro s log s' h
    simp only [playAux] at h
    by_cases hc : (contStep (some n) cP s.idx s.rng).1
    · have hi : s.idx < n := contStep_true_lt n cP s.idx s.rng hc
      rw [if_pos hc] at h
      split at h
      · exact absurd h (by simp)
      · have hrec := ih _ _ _ h
        simp only [rounds_append] at hrec
        omega
    · rw [if_neg hc] at h
      simp only [Option.some.injEq, Except.ok.injEq, Prod.mk.injEq] at h
      obtain ⟨hl, -⟩ := h
      subst hl
      omega

theorem playAux_total (pm : PayoffMatrix) (nz : Option Noise) (n : ℕ) :
    ∀ (fuel : ℕ) (s : PlayState σa σb), s.pa.strat.validMoves → s.pb.strat.validMoves →
    n - s.idx + 1 ≤ fuel →
    ∃ log s', playAux pm nz (some n) none fuel s = some (.ok (log, s')) := by
  intro fuel
  induction fuel with
  | zero =>
    intro s hA hB hf
    omega
  | succ k ih =>
    intro s hA hB hf
    by_cases hc : (contStep (some n) none s.idx s.rng).1
    · have hi : s.idx < n := contStep_true_lt n none s.idx s.rng hc
      obtain ⟨p, hp⟩ := payoff_ok_of_valid pm
        (applyNoiseM nz (moveOf s.pa s.idx s.aPrev s.bPrev).1
          (contStep (some n) none s.idx s.rng).2).1
        (applyNoiseM nz (moveOf s.pb s.idx s.bPrev s.aPrev).1
          (applyNoiseM nz (moveOf s.pa s.idx s.aPrev s.bPrev).1
            (contStep (some n) none s.idx s.rng).2).2).1
        (applyNoiseM_valid nz _ _ (moveOf_valid s.pa s.idx s.aPrev s.bPrev hA))
        (applyNoiseM_valid nz _ _ (moveOf_valid s.pb s.idx s.bPrev s.aPrev hB))
      simp only [playAux, if_pos hc, hp]
      apply ih
      · rw [moveOf_strat]
        exact hA
      · rw [moveOf_strat]
        exact hB
      · show n - (s.idx + 1) + 1 ≤ k
        omega
    · refine ⟨s.log, { s with rng := (contStep (some n) none s.idx s.rng).2 }, ?_⟩
      simp only [playAux, if_neg hc]

theorem moveOf_rngFree (p : Player σ) (ra : RNG) (i : ℕ) (ml ol : Option Action)
    (h : p.strat.rngFree) :
    moveOf { p with rng := ra } i ml ol =
      ((moveOf p i ml ol).1, { (moveOf p i ml ol).2 with rng := ra }) := by
  obtain ⟨h1, h2, h3, h4⟩ := h
  unfold moveOf Player.firstMove Player.nextMove
  split
  · refine Prod.ext ?_ (Player.ext rfl ?_ rfl rfl ?_)
    · exact (h1 p.state ra p.rng).1
    · exact (h1 p.state ra p.rng).2
    · exact h2 p.state ra
  · refine Prod.ext ?_ (Player.ext rfl ?_ rfl rfl ?_)
    · exact (h3 p.state ml ol ra p.rng).1
    · exact (h3 p.state ml ol ra p.rng).2
    · exact h4 p.state ml ol ra

theorem playAux_playerRngs (pm : PayoffMatrix) (nz : Option Noise) (nR : Option ℕ)
    (cP : Option ℚ) :
    ∀ (fuel : ℕ) (pa : Player σa) (pb : Player σb) (rng : RNG) (log : MatchLog)
      (aP bP : Option Action) (idx : ℕ) (ra rb : RNG),
    pa.strat.rngFree → pb.strat.rngFree →
    (playAux pm nz nR cP fuel
        ⟨{ pa with rng := ra }, { pb with rng := rb }, rng, log, aP, bP, idx⟩).map
      (Except.map Prod.fst) =
    (playAux pm nz nR cP fuel ⟨pa, pb, rng, log, aP, bP, idx⟩).map (Except.map Prod.fst) := by
  intro fuel
  induction fuel with
  | zero =>
    intro pa pb rng log aP bP idx ra rb hA hB
    simp [playAux]
  | succ k ih =>
    intro pa pb rng log aP bP idx ra rb hA hB
    simp only [playAux, moveOf_rngFree pa ra idx aP bP hA, moveOf_rngFree pb rb idx bP aP hB]
    by_cases hc : (contStep nR cP idx rng).1
    · rw [if_pos hc, if_pos hc]
      cases hp : pm.payoff
          (applyNoiseM nz (moveOf pa idx aP bP).1 (contStep nR cP idx rng).2).1
          (applyNoiseM nz (moveOf pb idx bP aP).1
            (applyNoiseM nz (moveOf pa idx aP bP).1 (contStep nR cP idx rng).2).2).1 with
      | error e => rfl
      | ok p =>
        exact ih (moveOf pa idx aP bP).2 (moveOf pb idx bP aP).2 _ _ _ _ _ ra rb
          (by rw [moveOf_strat]; exact hA) (by rw [moveOf_strat]; exact hB)
    · rw [if_neg hc, if_neg hc]
      rfl

theorem playAux_noise_pos (pm : PayoffMatrix) (z : Noise) (nR : Option ℕ)
    (hz : 0 < z.epsilon) :
    ∀ (fuel : ℕ) (s : PlayState σa σb) (log : MatchLog) (s' : PlayState σa σb),
    playAux pm (some z) nR none fuel s = some (.ok (log, s')) →
    s'.rng.stream = s.rng.stream ∧
      s'.rng.pos + 2 * s.log.rounds = s.rng.pos + 2 * log.rounds := by
  intro fuel
  induction fuel with
  | zero =>
    intro s log s' h
    simp [playAux] at h
  | succ k ih =>
    intro s log s' h
    simp only [playAux] at h
    by_cases hc : (contStep nR none s.idx s.rng).1
    · rw [if_pos hc] at h
      split at h
      · exact absurd h (by simp)
      · obtain ⟨ihs, ihp⟩ := ih _ _ _ h
        simp only [rounds_append, applyNoiseM_stream, contStep_none_rng] at ihs ihp
        constructor
        · exact ihs
        · have hp2 : (applyNoiseM (some z)
              (moveOf s.pb s.idx s.bPrev s.aPrev).1
              (applyNoiseM (some z) (moveOf s.pa s.idx s.aPrev s.bPrev).1 s.rng).2).2.pos =
              s.rng.pos + 2 := by
            rw [applyNoiseM_pos_of_drawing _ _ _ hz, applyNoiseM_pos_of_drawing _ _ _ hz]
          omega
    · rw [if_neg hc] at h
      simp only [Option.some.injEq, Except.ok.injEq, Prod.mk.injEq] at h
      obtain ⟨hl, hs⟩ := h
      subst hl
      subst hs
      simp [contStep_none_rng]

theorem playAuxPost_eq (pm : PayoffMatrix) (nz : Option Noise) (nR : Option ℕ)
    (cP : Option ℚ) :
    ∀ (fuel : ℕ) (s : PlayState σa σb),
    s.aPrev = s.log.actions_a.getLast? → s.bPrev = s.log.actions_b.getLast? →
    playAuxPost pm nz nR cP fuel s = playAux pm nz nR cP fuel s := by
  intro fuel
  induction fuel with
  | zero =>
    intro s h1 h2
    rfl
  | succ k ih =>
    intro s h1 h2
    obtain ⟨pa, pb, rng, log, aP, bP, idx⟩ := s
    simp only at h1 h2
    subst h1
    subst h2
    simp only [playAuxPost, playAux]
    by_cases hc : (contStep nR cP idx rng).1
    · rw [if_pos hc, if_pos hc]
      cases hp : pm.payoff
          (applyNoiseM nz (moveOf pa idx log.actions_a.getLast? log.actions_b.getLast?).1
            (contStep nR cP idx rng).2).1
          (applyNoiseM nz (moveOf pb idx log.actions_b.getLast? log.actions_a.getLast?).1
            (applyNoiseM nz
              (moveOf pa idx log.actions_a.getLast? log.actions_b.getLast?).1
              (contStep nR cP idx rng).2).2).1 with
      | error e => rfl
      | ok p =>
        exact ih _ (by simp [MatchLog.append, List.getLast?_concat])
          (by simp [MatchLog.append, List.getLast?_concat])
    · rw [if_neg hc, if_neg hc]

theorem play_eq (m : IteratedMatch σa σb) (ss : ℤ → ℕ → ℚ) (fuel : ℕ) :
    m.play ss fuel =
      match playAux m.payoffMatrix m.noise m.nRounds m.contProb fuel
          ⟨m.playerA.reset ss, m.playerB.reset ss, m.rng, ⟨[], [], [], []⟩, none, none, 0⟩ with
      | none => none
      | some (.error e) => some (.error e)
      | some (.ok r) =>
        some (.ok (buildOutcome r.1, r.1,
          { m with playerA := r.2.pa, playerB := r.2.pb, rng := r.2.rng })) :=
  rfl

theorem play_ok_elim (m : IteratedMatch σa σb) (ss : ℤ → ℕ → ℚ) (fuel : ℕ)
    (o : MatchOutcome) (log : MatchLog) (m' : IteratedMatch σa σb)
    (h : m.play ss fuel = some (.ok (o, log, m'))) :
    ∃ s' : PlayState σa σb,
      playAux m.payoffMatrix m.noise m.nRounds m.contProb fuel
        ⟨m.playerA.reset ss, m.playerB.reset ss, m.rng, ⟨[], [], [], []⟩, none, none, 0⟩ =
        some (.ok (log, s')) ∧
      o = buildOutcome log ∧
      m' = { m with playerA := s'.pa, playerB := s'.pb, rng := s'.rng } := by
  cases hx : playAux m.payoffMatrix m.noise m.nRounds m.contProb fuel
      ⟨m.playerA.reset ss, m.playerB.reset ss, m.rng, ⟨[], [], [], []⟩, none, none, 0⟩ with
  | none =>
    rw [play_eq, hx] at h
    exact absurd h (by simp)
  | some r =>
    cases r with
    | error e =>
      rw [play_eq, hx] at h
      simp at h
    | ok r =>
      obtain ⟨lg, st⟩ := r
      rw [play_eq, hx] at h
      simp only [Option.some.injEq, Except.ok.injEq, Prod.mk.injEq] at h
      obtain ⟨ho, hlog, hm⟩ := h
      subst hlog
      exact ⟨st, rfl, ho.symm, hm.symm⟩

/-! ## Claim theorems -/

/-- C4: in every round with index `≥ 1` of `IteratedMatch.play`, each side's
`next_move` receives the post-noise effective actions of the previous round —
exactly the last entries recorded in the MatchLog — and never the raw
pre-noise intents: the play loop is extensionally equal to the variant
`playPost` whose round-`≥ 1` calls read their arguments off the accumulated
MatchLog. -/
theorem next_move_post_noise_c4 :
    ∀ (σa σb : Type) (m : IteratedMatch σa σb) (ss : ℤ → ℕ → ℚ) (fuel : ℕ),
    m.playPost ss fuel = m.play ss fuel := by
  intro σa σb m ss fuel
  have h := playAuxPost_eq m.payoffMatrix m.noise m.nRounds m.contProb fuel
    ⟨m.playerA.reset ss, m.playerB.reset ss, m.rng, ⟨[], [], [], []⟩, none, none, 0⟩ rfl rfl
  simp only [IteratedMatch.playPost, IteratedMatch.play, h]

/-- C8: `PayoffMatrix.payoff` realises the resolution table, is
swap-consistent, and rejects any argument outside `{C, D}` with an error. -/
theorem payoff_table_swap_c8 :
    ∀ (m : PayoffMatrix),
    m.payoff ("C") ("C") = .ok (m.reward, m.reward) ∧
    m.payoff ("C") ("D") = .ok (m.sucker, m.temptation) ∧
    m.payoff ("D") ("C") = .ok (m.temptation, m.sucker) ∧
    m.payoff ("D") ("D") = .ok (m.punishment, m.punishment) ∧
    (∀ a b pa pb, m.payoff a b = .ok (pa, pb) → m.payoff b a = .ok (pb, pa)) ∧
    (∀ a b, a ∉ ACTIONS ∨ b ∉ ACTIONS → ∃ e, m.payoff a b = .error e) := by
  intro m
  refine ⟨by simp [PayoffMatrix.payoff, ACTIONS], by simp [PayoffMatrix.payoff, ACTIONS],
    by simp [PayoffMatrix.payoff, ACTIONS], by simp [PayoffMatrix.payoff, ACTIONS],
    ?_, ?_⟩
  · intro a b pa pb h
    by_cases hm : a ∉ ACTIONS ∨ b ∉ ACTIONS
    · rw [PayoffMatrix.payoff, if_pos hm] at h
      exact absurd h (by simp)
    · push_neg at hm
      obtain ⟨ha, hb⟩ := hm
      rw [mem_ACTIONS_iff] at ha hb
      rcases ha with rfl | rfl <;> rcases hb with rfl | rfl <;>
        (simp [PayoffMatrix.payoff, ACTIONS] at h ⊢; exact ⟨h.2, h.1⟩)
  · intro a b hab
    exact ⟨_, by rw [PayoffMatrix.payoff, if_pos hab]⟩

/-- C8 witness: the default payoff matrix at a concrete pair and a concrete
invalid input. -/
theorem payoff_table_swap_c8_witness :
    PayoffMatrix.payoff {} ("D") ("C") = .ok (5, 0) ∧
    ∃ e, PayoffMatrix.payoff {} ("X") ("C") = .error e := by
  constructor
  · exact (payoff_table_swap_c8 {}).2.2.2.2.1 ("C") ("D") 0 5 (payoff_table_swap_c8 {}).2.1
  · exact (payoff_table_swap_c8 {}).2.2.2.2.2 ("X") ("C") (by left; decide)

/-- C10: the cooperation rates are total on every log: `0` at zero rounds
(no division by zero), and the count of `C` entries on that side divided by
the round count otherwise. -/
theorem cooperation_rate_total_c10 :
    ∀ (log : MatchLog),
    (log.rounds = 0 → log.cooperation_rate_a = 0 ∧ log.cooperation_rate_b = 0) ∧
    (1 ≤ log.rounds →
      log.cooperation_rate_a = (log.actions_a.count ("C") : ℚ) / (log.rounds : ℚ) ∧
      log.cooperation_rate_b = (log.actions_b.count ("C") : ℚ) / (log.rounds : ℚ)) := by
  intro log
  constructor
  · intro h
    constructor <;> simp [MatchLog.cooperation_rate_a, MatchLog.cooperation_rate_b, h]
  · intro h
    have h0 : log.rounds ≠ 0 := by omega
    constructor <;>
      simp [MatchLog.cooperation_rate_a, MatchLog.cooperation_rate_b, h0]

/-- C10 witness: the empty log and a one-round log. -/
theorem cooperation_rate_total_c10_witness :
    (MatchLog.cooperation_rate_a ⟨[], [], [], []⟩ = 0 ∧
      MatchLog.cooperation_rate_b ⟨[], [], [], []⟩ = 0) ∧
    MatchLog.cooperation_rate_a ⟨[("C")], [("D")], [0], [5]⟩ =
      ((List.count ("C") [("C")] : ℚ) / ((1 : ℕ) : ℚ)) := by
  constructor
  · exact (cooperation_rate_total_c10 ⟨[], [], [], []⟩).1 rfl
  · exact ((cooperation_rate_total_c10 ⟨[("C")], [("D")], [0], [5]⟩).2 (by decide)).1

/-- C5: for every completed `play`, a zero-round MatchLog yields means
computed with divisor `1` (hence `0`, as the empty totals are `0`) instead of
a division by zero, and an `n ≥ 1`-round log yields means equal to the totals
divided by `n`. -/
theorem zero_rounds_outcome_c5 :
    ∀ (σa σb : Type) (ss : ℤ → ℕ → ℚ) (fuel : ℕ) (m : IteratedMatch σa σb)
      (o : MatchOutcome) (log : MatchLog) (m' : IteratedMatch σa σb),
    m.play ss fuel = some (.ok (o, log, m')) →
    (log.rounds = 0 →
      o.mean_payoff_a = log.payoff_a.sum / (1 : ℚ) ∧ o.mean_payoff_a = 0 ∧
      o.mean_payoff_b = log.payoff_b.sum / (1 : ℚ) ∧ o.mean_payoff_b = 0) ∧
    (1 ≤ log.rounds →
      o.mean_payoff_a = log.payoff_a.sum / (log.rounds : ℚ) ∧
      o.mean_payoff_b = log.payoff_b.sum / (log.rounds : ℚ)) := by
  intro σa σb ss fuel m o log m' h
  obtain ⟨s', hx, ho, hm⟩ := play_ok_elim m ss fuel o log m' h
  obtain ⟨hb, hpa, hpb⟩ := playAux_wf _ _ _ _ fuel _ _ _ hx rfl rfl rfl
  subst ho
  constructor
  · intro h0
    have hA : log.payoff_a = [] := List.length_eq_zero.mp (by rw [hpa]; exact h0)
    have hB : log.payoff_b = [] := List.length_eq_zero.mp (by rw [hpb]; exact h0)
    refine ⟨?_, ?_, ?_, ?_⟩ <;> simp [buildOutcome, h0, hA, hB]
  · intro h1
    have h0 : ¬ log.rounds = 0 := by omega
    constructor <;> simp [buildOutcome, h0]

/-- C5 witness: an `n_rounds = 0` match completes with a zero-round log and
reports mean payoffs `0`. -/
theorem zero_rounds_outcome_c5_witness :
    (outcomeOf (IteratedMatch.play (mkMatchC (some 0) none none (constRng 0))
        ssZero 1)).mean_payoff_a = 0 ∧
    (outcomeOf (IteratedMatch.play (mkMatchC (some 0) none none (constRng 0))
        ssZero 1)).mean_payoff_b = 0 := by
  have h := zero_rounds_outcome_c5 Unit Unit ssZero 1 (mkMatchC (some 0) none none (constRng 0))
    (outcomeOf (IteratedMatch.play (mkMatchC (some 0) none none (constRng 0)) ssZero 1))
    (logOf (IteratedMatch.play (mkMatchC (some 0) none none (constRng 0)) ssZero 1))
    (afterPlay (IteratedMatch.play (mkMatchC (some 0) none none (constRng 0)) ssZero 1)
      (mkMatchC (some 0) none none (constRng 0)))
    rfl
  exact ⟨(h.1 rfl).2.1, (h.1 rfl).2.2.2⟩

theorem contStep_zero_round0 (r : RNG) : contStep none (some 0) 0 r = (true, r) :=
  rfl

theorem contStep_zero_round1 (r : RNG) (hr : ∀ k, 0 ≤ r.stream k) :
    contStep none (some 0) 1 r = (false, ⟨r.stream, r.pos + 1⟩) := by
  simp only [contStep, nRoundsExceeded, RNG.random]
  norm_num
  exact hr r.pos

/-- C6: with probabilistic termination at `continuation_prob = 0.0`
(`n_rounds = None`), `play` performs exactly one round whatever the rng
state: round 0 always executes and the round-1 continuation draw
(`random() < 0.0`) always fails, as `random()` draws are nonnegative. -/
theorem cont_prob_zero_one_round_c6 :
    ∀ (σa σb : Type) (ss : ℤ → ℕ → ℚ) (fuel : ℕ) (m : IteratedMatch σa σb),
    m.nRounds = none → m.contProb = some 0 →
    (∀ k, 0 ≤ m.rng.stream k) →
    m.playerA.strat.validMoves → m.playerB.strat.validMoves →
    2 ≤ fuel →
    ∃ o log m', m.play ss fuel = some (.ok (o, log, m')) ∧ log.rounds = 1 := by
  intro σa σb ss fuel m hn hc hpos hA hB hf
  obtain ⟨f, rfl⟩ : ∃ f, fuel = f + 2 := ⟨fuel - 2, by omega⟩
  have hA0 : (m.playerA.reset ss).strat.validMoves := hA
  have hB0 : (m.playerB.reset ss).strat.validMoves := hB
  obtain ⟨q, hq⟩ := payoff_ok_of_valid m.payoffMatrix
    (applyNoiseM m.noise (moveOf (m.playerA.reset ss) 0 none none).1 m.rng).1
    (applyNoiseM m.noise (moveOf (m.playerB.reset ss) 0 none none).1
      (applyNoiseM m.noise (moveOf (m.playerA.reset ss) 0 none none).1 m.rng).2).1
    (applyNoiseM_valid _ _ _ (moveOf_valid _ _ _ _ hA0))
    (applyNoiseM_valid _ _ _ (moveOf_valid _ _ _ _ hB0))
  have hr1 : ∀ k, 0 ≤ (applyNoiseM m.noise (moveOf (m.playerB.reset ss) 0 none none).1
      (applyNoiseM m.noise (moveOf (m.playerA.reset ss) 0 none none).1 m.rng).2).2.stream k := by
    intro k
    rw [applyNoiseM_stream, applyNoiseM_stream]
    exact hpos k
  have hplay : ∃ s', playAux m.payoffMatrix m.noise m.nRounds m.contProb (f + 2)
      ⟨m.playerA.reset ss, m.playerB.reset ss, m.rng, ⟨[], [], [], []⟩, none, none, 0⟩ =
      some (.ok ((⟨[], [], [], []⟩ : MatchLog).append
          (applyNoiseM m.noise (moveOf (m.playerA.reset ss) 0 none none).1 m.rng).1
          (applyNoiseM m.noise (moveOf (m.playerB.reset ss) 0 none none).1
            (applyNoiseM m.noise (moveOf (m.playerA.reset ss) 0 none none).1 m.rng).2).1
          q.1 q.2, s')) := by
    rw [hn, hc]
    exact ⟨_, by
      simp only [playAux, contStep_zero_round0, hq, zero_add, contStep_zero_round1 _ hr1,
        ite_true, ite_false, Bool.false_eq_true]
      rfl⟩
  obtain ⟨s2, hplay⟩ := hplay
  rw [play_eq, hplay]
  refine ⟨_, _, _, rfl, ?_⟩
  rw [rounds_append]
  rfl

/-- C6 witness: a concrete `continuation_prob = 0.0` match plays exactly one
round. -/
theorem cont_prob_zero_one_round_c6_witness :
    ∃ o log m', IteratedMatch.play (mkMatchC none (some 0) none (constRng 0)) ssZero 2 =
      some (.ok (o, log, m')) ∧ log.rounds = 1 := by
  apply cont_prob_zero_one_round_c6 Unit Unit ssZero 2 (mkMatchC none (some 0) none (constRng 0))
    rfl rfl
  · intro k
    simp [mkMatchC, constRng]
  · exact ⟨fun st rng => Or.inl rfl, fun st ml ol rng => Or.inl rfl⟩
  · exact ⟨fun st rng => Or.inl rfl, fun st ml ol rng => Or.inl rfl⟩
  · omega

theorem grimOutputs_char :
    ∀ (obs : List (Option Action × Option Action)) (st : Bool) (r : RNG) (i : ℕ),
    i < obs.length →
    (grimOutputs r st obs).get? i =
      some (if st || (obs.take (i + 1)).any (fun p => decide (p.2 = some ("D")))
        then ("D") else ("C")) := by
  intro obs
  induction obs with
  | nil =>
    intro st r i h
    simp at h
  | cons o rest ih =>
    intro st r i h
    cases i with
    | zero =>
      by_cases ho : o.2 = some ("D") <;>
        by_cases hst : st <;>
        simp [grimOutputs, grimTriggerNext, ho, hst]
    | succ k =>
      have hk : k < rest.length := by simpa using h
      have hstep := ih (if o.2 = some ("D") then true else st) r k hk
      simp only [grimOutputs, grimTriggerNext, List.get?_cons_succ]
      rw [hstep]
      by_cases ho : o.2 = some ("D")
      · simp [ho, List.take_succ_cons]
      · rw [if_neg ho, List.take_succ_cons, List.any_cons, decide_eq_false ho]
        rfl

/-- C9: a `GrimTrigger` instance, started from `reset`, returns Defect at
call `i` of a `next_move` sequence exactly when some call `j ≤ i` observed
the opponent's previous action as Defect — so it defects from the first
betrayal onwards and never before. -/
theorem grim_trigger_lock_c9 :
    ∀ (s0 : Bool) (r : RNG) (obs : List (Option Action × Option Action)) (i : ℕ),
    i < obs.length →
    ((grimOutputs r (grimTrigger.reset s0) obs).get? i = some ("D") ↔
      ∃ p ∈ obs.take (i + 1), p.2 = some ("D")) ∧
    ((grimOutputs r (grimTrigger.reset s0) obs).get? i = some ("C") ↔
      ¬ ∃ p ∈ obs.take (i + 1), p.2 = some ("D")) := by
  intro s0 r obs i h
  have hc := grimOutputs_char obs false r i h
  have hiff : ((obs.take (i + 1)).any (fun p => decide (p.2 = some ("D"))) = true) ↔
      ∃ p ∈ obs.take (i + 1), p.2 = some ("D") := by
    simp [List.any_eq_true]
  show ((grimOutputs r false obs).get? i = some ("D") ↔ _) ∧
    ((grimOutputs r false obs).get? i = some ("C") ↔ _)
  rw [hc]
  by_cases hany : (obs.take (i + 1)).any (fun p => decide (p.2 = some ("D"))) = true
  · rw [← hiff]
    simp [hany]
  · rw [← hiff]
    simp only [Bool.not_eq_true] at hany
    simp [hany]

/-- C9 witness: a concrete call sequence where the second call observes a
Defect; the third call defects. -/
theorem grim_trigger_lock_c9_witness :
    (grimOutputs (constRng 0) (grimTrigger.reset true)
      [(some ("C"), some ("C")), (some ("C"), some ("D")),
        (some ("C"), some ("C"))]).get? 2 = some ("D") := by
  have h := grim_trigger_lock_c9 true (constRng 0)
    [(some ("C"), some ("C")), (some ("C"), some ("D")), (some ("C"), some ("C"))] 2
    (by decide)
  exact h.1.mpr ⟨(some ("C"), some ("D")), by decide, rfl⟩

/-- C2 counterexample: a one-round noisy match between two explicitly seeded
`AllCooperate` players.  The first `play` flips side A's action (match-rng
draw `1/4 ≤ 1/2`); the second `play` on the returned (mutated) instance does
not (draw `3/4`), because `play` resets the players but never the match rng.
The two MatchLogs differ, refuting the claim as stated. -/
theorem replay_reproducibility_c2_cex :
    (c2match.playerA.seed = some 0 ∧ c2match.playerB.seed = some 0) ∧
    playOk (c2match.play ssZero 2) = true ∧
    playOk ((afterPlay (c2match.play ssZero 2) c2match).play ssZero 2) = true ∧
    (logOf (c2match.play ssZero 2)).actions_a = [("D")] ∧
    (logOf ((afterPlay (c2match.play ssZero 2) c2match).play ssZero 2)).actions_a =
      [("C")] ∧
    logOf ((afterPlay (c2match.play ssZero 2) c2match).play ssZero 2) ≠
      logOf (c2match.play ssZero 2) := by
  decide

theorem reset_strat (p : Player σ) (ss : ℤ → ℕ → ℚ) : (p.reset ss).strat = p.strat :=
  rfl

theorem reset_name (p : Player σ) (ss : ℤ → ℕ → ℚ) : (p.reset ss).name = p.name :=
  rfl

theorem reset_seed (p : Player σ) (ss : ℤ → ℕ → ℚ) : (p.reset ss).seed = p.seed :=
  rfl

theorem reset_withRng (p : Player σ) (ss : ℤ → ℕ → ℚ) (ra : RNG) :
    (({ p with rng := ra } : Player σ).reset ss) =
      { (p.reset ss) with
        rng := match p.seed with
          | some s => ⟨ss s, 0⟩
          | none => ra } := by
  unfold Player.reset
  cases p.seed <;> rfl

/-- C2 amended: replaying the same `IteratedMatch` instance reproduces the
identical result provided both Players carry explicit seeds, the strategies'
`reset` restores a fixed initial state, and the match consumes no match-global
randomness (termination by fixed `n_rounds`, i.e. `continuation_prob is None`,
and noise absent or `epsilon ≤ 0`).  Without the no-match-randomness proviso
the claim fails (`play` never re-seeds the match rng), see the
counterexample. -/
theorem replay_reproducibility_c2 :
    ∀ (σa σb : Type) (ss : ℤ → ℕ → ℚ) (fuel : ℕ) (m : IteratedMatch σa σb)
      (sa sb : ℤ) (o : MatchOutcome) (log : MatchLog) (m' : IteratedMatch σa σb),
    m.playerA.seed = some sa → m.playerB.seed = some sb →
    m.playerA.strat.resetConst → m.playerB.strat.resetConst →
    m.contProb = none → noiseInert m.noise →
    m.play ss fuel = some (.ok (o, log, m')) →
    m'.play ss fuel = m.play ss fuel := by
  intro σa σb ss fuel m sa sb o log m' hsa hsb hra hrb hcp hnz h
  obtain ⟨s', hx, ho, hm⟩ := play_ok_elim m ss fuel o log m' h
  rw [hcp] at hx
  have hrng : s'.rng = m.rng := by
    have := playAux_rng_const m.payoffMatrix m.noise m.nRounds hnz fuel _ _ _ hx
    simpa using this
  have hpres := playAux_pres m.payoffMatrix m.noise m.nRounds none fuel _ _ _ hx
  obtain ⟨hps, hpn, hpsd, hqs, hqn, hqsd⟩ := hpres
  simp only [reset_strat, reset_name, reset_seed] at hps hpn hpsd hqs hqn hqsd
  have hstA : s'.pa.reset ss = m.playerA.reset ss := by
    refine Player.ext ?_ ?_ ?_ ?_ ?_
    · exact hps
    · show s'.pa.strat.reset s'.pa.state = m.playerA.strat.reset (m.playerA.state)
      rw [hps]
      exact hra s'.pa.state m.playerA.state
    · exact hpn
    · exact hpsd
    · show (match s'.pa.seed with
        | some s => (⟨ss s, 0⟩ : RNG)
        | none => s'.pa.rng) = (match m.playerA.seed with
        | some s => (⟨ss s, 0⟩ : RNG)
        | none => m.playerA.rng)
      rw [hpsd, hsa]
  have hstB : s'.pb.reset ss = m.playerB.reset ss := by
    refine Player.ext ?_ ?_ ?_ ?_ ?_
    · exact hqs
    · show s'.pb.strat.reset s'.pb.state = m.playerB.strat.reset (m.playerB.state)
      rw [hqs]
      exact hrb s'.pb.state m.playerB.state
    · exact hqn
    · exact hqsd
    · show (match s'.pb.seed with
        | some s => (⟨ss s, 0⟩ : RNG)
        | none => s'.pb.rng) = (match m.playerB.seed with
        | some s => (⟨ss s, 0⟩ : RNG)
        | none => m.playerB.rng)
      rw [hqsd, hsb]
  subst hm
  rw [play_eq, play_eq]
  dsimp only
  rw [hstA, hstB, hrng, hcp, hx]

theorem play_log_eq_of_playAux (m₁ m₂ : IteratedMatch σa σb) (ss : ℤ → ℕ → ℚ) (fuel : ℕ)
    (h : (playAux m₁.payoffMatrix m₁.noise m₁.nRounds m₁.contProb fuel
        ⟨m₁.playerA.reset ss, m₁.playerB.reset ss, m₁.rng, ⟨[], [], [], []⟩,
          none, none, 0⟩).map (Except.map Prod.fst) =
      (playAux m₂.payoffMatrix m₂.noise m₂.nRounds m₂.contProb fuel
        ⟨m₂.playerA.reset ss, m₂.playerB.reset ss, m₂.rng, ⟨[], [], [], []⟩,
          none, none, 0⟩).map (Except.map Prod.fst)) :
    (m₁.play ss fuel).map (Except.map (fun t => t.2.1)) =
      (m₂.play ss fuel).map (Except.map (fun t => t.2.1)) := by
  rw [play_eq, play_eq]
  cases hx : playAux m₁.payoffMatrix m₁.noise m₁.nRounds m₁.contProb fuel
      ⟨m₁.playerA.reset ss, m₁.playerB.reset ss, m₁.rng, ⟨[], [], [], []⟩, none, none, 0⟩ with
  | none =>
    rw [hx] at h
    cases hy : playAux m₂.payoffMatrix m₂.noise m₂.nRounds m₂.contProb fuel
        ⟨m₂.playerA.reset ss, m₂.playerB.reset ss, m₂.rng, ⟨[], [], [], []⟩,
          none, none, 0⟩ with
    | none => rfl
    | some v =>
      rw [hy] at h
      cases v <;> simp at h
  | some v =>
    rw [hx] at h
    cases hy : playAux m₂.payoffMatrix m₂.noise m₂.nRounds m₂.contProb fuel
        ⟨m₂.playerA.reset ss, m₂.playerB.reset ss, m₂.rng, ⟨[], [], [], []⟩,
          none, none, 0⟩ with
    | none =>
      rw [hy] at h
      cases v <;> simp at h
    | some w =>
      rw [hy] at h
      cases v with
      | error e =>
        cases w with
        | error e' =>
          simp only [Option.map_some', Except.map, Option.some.injEq,
            Except.error.injEq] at h
          subst h
          rfl
        | ok w => simp [Except.map] at h
      | ok v =>
        cases w with
        | error e' => simp [Except.map] at h
        | ok w =>
          simp only [Option.map_some', Except.map, Option.some.injEq,
            Except.ok.injEq] at h
          simp [Except.map, h]

/-- C1 counterexample: two matches of seeded rng-free players identical
except for the **match** rng stream produce different effective actions under
noise (`1/4 ≤ 1/2` flips, `3/4` does not), while replacing both **players'**
rng states changes nothing — so the noise draws come from the match-global
stream, not the acting Player's stream, refuting the claim as stated. -/
theorem noise_match_rng_c1_cex :
    playOk (c1matchLow.play ssZero 2) = true ∧
    playOk (c1matchHigh.play ssZero 2) = true ∧
    c1matchHigh = { c1matchLow with rng := constRng qThreeQuarters } ∧
    (logOf (c1matchLow.play ssZero 2)).actions_a = [("D")] ∧
    (logOf (c1matchHigh.play ssZero 2)).actions_a = [("C")] ∧
    logOf ((c1matchLow.withPlayerRngs (constRng qThreeQuarters)
        (constRng qThreeQuarters)).play ssZero 2) =
      logOf (c1matchLow.play ssZero 2) := by
  refine ⟨by decide, by decide, rfl, by decide, by decide, by decide⟩

/-- C1 corrected/amended: noise draws are scoped to the match-global rng, not
the players' rngs: (i) with rng-free strategies the produced MatchLog is
invariant under both players' rng states, and (ii) with active noise
(`epsilon > 0`) and fixed-`n_rounds` termination the match rng is advanced by
exactly two noise draws per played round (side A's, then side B's), its
stream untouched. -/
theorem noise_match_rng_c1 :
    (∀ (σa σb : Type) (ss : ℤ → ℕ → ℚ) (fuel : ℕ) (m : IteratedMatch σa σb) (ra rb : RNG),
      m.playerA.strat.rngFree → m.playerB.strat.rngFree →
      ((m.withPlayerRngs ra rb).play ss fuel).map (Except.map (fun t => t.2.1)) =
        (m.play ss fuel).map (Except.map (fun t => t.2.1))) ∧
    (∀ (σa σb : Type) (ss : ℤ → ℕ → ℚ) (fuel : ℕ) (m : IteratedMatch σa σb) (z : Noise)
      (o : MatchOutcome) (log : MatchLog) (m' : IteratedMatch σa σb),
      m.contProb = none → m.noise = some z → 0 < z.epsilon →
      m.play ss fuel = some (.ok (o, log, m')) →
      m'.rng.stream = m.rng.stream ∧ m'.rng.pos = m.rng.pos + 2 * log.rounds) := by
  constructor
  · intro σa σb ss fuel m ra rb hA hB
    apply play_log_eq_of_playAux
    dsimp only [IteratedMatch.withPlayerRngs]
    rw [reset_withRng m.playerA ss ra, reset_withRng m.playerB ss rb]
    exact playAux_playerRngs m.payoffMatrix m.noise m.nRounds m.contProb fuel
      (m.playerA.reset ss) (m.playerB.reset ss) m.rng ⟨[], [], [], []⟩ none none 0 _ _ hA hB
  · intro σa σb ss fuel m z o log m' hcp hnz hz h
    obtain ⟨s', hx, ho, hm⟩ := play_ok_elim m ss fuel o log m' h
    rw [hcp, hnz] at hx
    obtain ⟨h1, h2⟩ := playAux_noise_pos m.payoffMatrix z m.nRounds hz fuel _ _ _ hx
    subst hm
    refine ⟨h1, ?_⟩
    show s'.rng.pos = m.rng.pos + 2 * log.rounds
    have h0 : (MatchLog.rounds ⟨[], [], [], []⟩) = 0 := rfl
    simp only [h0] at h2
    omega

/-- C1 witness: the corrected scoping instantiated on a concrete noisy
match. -/
theorem noise_match_rng_c1_witness :
    ((c1matchLow.withPlayerRngs (constRng 0) (constRng 0)).play ssZero 2).map
        (Except.map (fun t => t.2.1)) =
      (c1matchLow.play ssZero 2).map (Except.map (fun t => t.2.1)) ∧
    (afterPlay (c1matchLow.play ssZero 2) c1matchLow).rng.stream =
      c1matchLow.rng.stream ∧
    (afterPlay (c1matchLow.play ssZero 2) c1matchLow).rng.pos =
      c1matchLow.rng.pos + 2 * (logOf (c1matchLow.play ssZero 2)).rounds := by
  have hfree : allCooperate.rngFree :=
    ⟨fun st r r' => ⟨rfl, rfl⟩, fun st r => rfl,
      fun st ml ol r r' => ⟨rfl, rfl⟩, fun st ml ol r => rfl⟩
  refine ⟨noise_match_rng_c1.1 Unit Unit ssZero 2 c1matchLow (constRng 0) (constRng 0)
      hfree hfree, ?_, ?_⟩
  · exact (noise_match_rng_c1.2 Unit Unit ssZero 2 c1matchLow ⟨qHalf⟩
      (outcomeOf (c1matchLow.play ssZero 2)) (logOf (c1matchLow.play ssZero 2))
      (afterPlay (c1matchLow.play ssZero 2) c1matchLow) rfl rfl (by decide) rfl).1
  · exact (noise_match_rng_c1.2 Unit Unit ssZero 2 c1matchLow ⟨qHalf⟩
      (outcomeOf (c1matchLow.play ssZero 2)) (logOf (c1matchLow.play ssZero 2))
      (afterPlay (c1matchLow.play ssZero 2) c1matchLow) rfl rfl (by decide) rfl).2

/-- C2 witness: replaying a noise-free fixed-length match between seeded
players reproduces the identical play result. -/
theorem replay_reproducibility_c2_witness :
    (afterPlay (IteratedMatch.play (mkMatchC (some 1) none none (constRng 0)) ssZero 2)
        (mkMatchC (some 1) none none (constRng 0))).play ssZero 2 =
      (mkMatchC (some 1) none none (constRng 0)).play ssZero 2 :=
  replay_reproducibility_c2 Unit Unit ssZero 2 (mkMatchC (some 1) none none (constRng 0))
    0 0
    (outcomeOf (IteratedMatch.play (mkMatchC (some 1) none none (constRng 0)) ssZero 2))
    (logOf (IteratedMatch.play (mkMatchC (some 1) none none (constRng 0)) ssZero 2))
    (afterPlay (IteratedMatch.play (mkMatchC (some 1) none none (constRng 0)) ssZero 2)
      (mkMatchC (some 1) none none (constRng 0)))
    rfl rfl (fun _ _ => rfl) (fun _ _ => rfl) rfl trivial rfl

/-- C3 counterexample: `IteratedMatch` construction succeeds with **both**
`n_rounds` and `continuation_prob` supplied, and then both are effectively
active: with a constant `1/4` match stream, `continuation_prob = 1/2` lets
every drawn round continue while `n_rounds` caps the match (2 or 3 rounds);
lowering `continuation_prob` to `1/10` stops after round 0.  This refutes
"exactly one of the two may be effectively active". -/
theorem init_validation_c3_cex :
    exceptOk (IteratedMatch.init allCPlayer allCPlayer none none (some 2) (some qHalf)
      none ssZero entZero) = true ∧
    roundsOf (IteratedMatch.play (c3match (some 2) (some qHalf)) ssZero 10) = 2 ∧
    roundsOf (IteratedMatch.play (c3match (some 3) (some qHalf)) ssZero 10) = 3 ∧
    roundsOf (IteratedMatch.play (c3match (some 2) (some qTenth)) ssZero 10) = 1 := by
  decide

/-- C3 corrected/amended: construction fails exactly when `continuation_prob`
lies outside `[0, 1)` or both `n_rounds` and `continuation_prob` are `None`;
a successfully constructed match carries both parameters verbatim, and both
may be simultaneously active — when `n_rounds` is set it caps the number of
rounds of every completed play (while `continuation_prob`, if also set, gates
each round beyond the first, as the counterexample shows concretely). -/
theorem init_validation_c3 :
    ∀ (σa σb : Type) (pa : Player σa) (pb : Player σb) (pm : Option PayoffMatrix)
      (nz : Option Noise) (nR : Option ℕ) (cP : Option ℚ) (seed : Option ℤ)
      (ss : ℤ → ℕ → ℚ) (ent : ℕ → ℚ),
    ((∃ e, IteratedMatch.init pa pb pm nz nR cP seed ss ent = .error e) ↔
      ((∃ c, cP = some c ∧ ¬ (0 ≤ c ∧ c < 1)) ∨ (nR = none ∧ cP = none))) ∧
    (∀ m, IteratedMatch.init pa pb pm nz nR cP seed ss ent = .ok m →
      m.nRounds = nR ∧ m.contProb = cP) ∧
    (∀ (fuel : ℕ) (m : IteratedMatch σa σb) (n : ℕ) (o : MatchOutcome) (log : MatchLog)
      (m' : IteratedMatch σa σb), m.nRounds = some n →
      m.play ss fuel = some (.ok (o, log, m')) → log.rounds ≤ n) := by
  intro σa σb pa pb pm nz nR cP seed ss ent
  refine ⟨⟨?_, ?_⟩, ?_, ?_⟩
  · intro hex
    obtain ⟨e, he⟩ := hex
    rw [IteratedMatch.init.eq_def] at he
    split at he
    next h1 =>
      left
      cases cP with
      | none => simp at h1
      | some c => exact ⟨c, rfl, of_decide_eq_true h1⟩
    next h1 =>
      split at he
      next h2 => exact Or.inr h2
      next h2 => exact absurd he (by simp)
  · intro h
    rcases h with ⟨c, rfl, hc⟩ | ⟨h1, h2⟩
    · exact ⟨("continuation_prob must be in [0, 1)"), by
        rw [IteratedMatch.init.eq_def, if_pos (decide_eq_true hc)]⟩
    · subst h1
      subst h2
      exact ⟨("either n_rounds or continuation_prob must be provided"), rfl⟩
  · intro m hm
    rw [IteratedMatch.init.eq_def] at hm
    split at hm
    next h1 => exact absurd hm (by simp)
    next h1 =>
      split at hm
      next h2 => exact absurd hm (by simp)
      next h2 =>
        simp only [Except.ok.injEq] at hm
        subst hm
        exact ⟨rfl, rfl⟩
  · intro fuel m n o log m' hn h
    obtain ⟨s', hx, -, -⟩ := play_ok_elim m ss fuel o log m' h
    rw [hn] at hx
    have := playAux_rounds_le m.payoffMatrix m.noise n m.contProb fuel _ _ _ hx
    have h0 : (MatchLog.rounds ⟨[], [], [], []⟩) = 0 := rfl
    simp only [h0] at this
    omega

/-- C3 witness: the error cases at concrete inputs, and the cap on a
concrete play. -/
theorem init_validation_c3_witness :
    (∃ e, IteratedMatch.init allCPlayer allCPlayer none none none none none
      ssZero entZero = .error e) ∧
    (∃ e, IteratedMatch.init allCPlayer allCPlayer none none (some 5) (some 1) none
      ssZero entZero = .error e) ∧
    (logOf (IteratedMatch.play (c3match (some 2) (some qHalf)) ssZero 10)).rounds ≤ 2 := by
  refine ⟨?_, ?_, ?_⟩
  · exact (init_validation_c3 Unit Unit allCPlayer allCPlayer none none none none none
      ssZero entZero).1.mpr (Or.inr ⟨rfl, rfl⟩)
  · exact (init_validation_c3 Unit Unit allCPlayer allCPlayer none none (some 5) (some 1)
      none ssZero entZero).1.mpr (Or.inl ⟨1, rfl, by norm_num⟩)
  · exact (init_validation_c3 Unit Unit allCPlayer allCPlayer none none (some 2)
      (some qHalf) none ssZero entZero).2.2 10 (c3match (some 2) (some qHalf)) 2
      (outcomeOf (IteratedMatch.play (c3match (some 2) (some qHalf)) ssZero 10))
      (logOf (IteratedMatch.play (c3match (some 2) (some qHalf)) ssZero 10))
      (afterPlay (IteratedMatch.play (c3match (some 2) (some qHalf)) ssZero 10)
        (c3match (some 2) (some qHalf)))
      rfl rfl

/-! ## Tournament lemmas -/

theorem pairsIdx_mem (n : ℕ) (i j : ℕ) :
    (i, j) ∈ pairsIdx n ↔ i < j ∧ j < n := by
  unfold pairsIdx
  rw [List.mem_flatten]
  constructor
  · intro h
    obtain ⟨l, hl, hx⟩ := h
    rw [List.mem_map] at hl
    obtain ⟨a, ha, rfl⟩ := hl
    rw [List.mem_range] at ha
    rw [List.mem_map] at hx
    obtain ⟨k, hk, he⟩ := hx
    rw [List.mem_range] at hk
    obtain ⟨rfl, rfl⟩ := Prod.mk.injEq .. ▸ he
    constructor <;> omega
  · intro ⟨hij, hj⟩
    refine ⟨(List.range (n - (i + 1))).map (fun k => (i, i + 1 + k)), ?_, ?_⟩
    · rw [List.mem_map]
      exact ⟨i, by rw [List.mem_range]; omega, rfl⟩
    · rw [List.mem_map]
      exact ⟨j - (i + 1), by rw [List.mem_range]; omega, by
        rw [Prod.mk.injEq]
        omega⟩

theorem sum_map_addOne (l : List ℕ) (g : ℕ → ℕ) :
    (l.map (fun i => g i + 1)).sum = (l.map g).sum + l.length := by
  induction l with
  | nil => rfl
  | cons a t ih =>
    simp only [List.map_cons, List.sum_cons, List.length_cons, ih]
    omega

theorem pairsIdx_length (n : ℕ) : (pairsIdx n).length = n.choose 2 := by
  have key : ∀ m, ((List.range m).map (fun i => m - (i + 1))).sum = m.choose 2 := by
    intro m
    induction m with
    | zero => rfl
    | succ k ih =>
      rw [List.range_succ, List.map_append, List.sum_append]
      have hmap : (List.range k).map (fun i => k + 1 - (i + 1)) =
          (List.range k).map (fun i => (k - (i + 1)) + 1) := by
        apply List.map_congr_left
        intro a ha
        rw [List.mem_range] at ha
        omega
      rw [hmap, sum_map_addOne]
      simp only [List.map_cons, List.map_nil, List.sum_cons, List.sum_nil,
        List.length_range, ih]
      have hch : (k + 1).choose 2 = k.choose 1 + k.choose 2 := Nat.choose_succ_succ k 1
      rw [Nat.choose_one_right] at hch
      omega
  unfold pairsIdx
  rw [List.length_flatten, List.map_map]
  have : ((fun l : List (ℕ × ℕ) => l.length) ∘ fun i =>
      (List.range (n - (i + 1))).map (fun k => (i, i + 1 + k))) =
      fun i => n - (i + 1) := by
    funext i
    simp [Function.comp]
  rw [this, key]

theorem list_set_self (l : List α) :
    ∀ (i : ℕ) (a : α), l.get? i = some a → l.set i a = l := by
  induction l with
  | nil =>
    intro i a h
    simp at h
  | cons x t ih =>
    intro i a h
    cases i with
    | zero =>
      simp only [List.get?_cons_zero, Option.some.injEq] at h
      rw [h]
      rfl
    | succ k =>
      simp only [List.get?_cons_succ] at h
      simp [List.set, ih k a h]

theorem mem_set_of (l : List α) (i : ℕ) (a : α) (P : α → Prop)
    (hl : ∀ p ∈ l, P p) (ha : P a) : ∀ p ∈ l.set i a, P p := by
  intro p hp
  rcases List.mem_or_eq_of_mem_set hp with h | rfl
  · exact hl p h
  · exact ha

theorem lbAdd_keys (d : List (String × ℚ)) (k : String) (v : ℚ) :
    (lbAdd d k v).map Prod.fst = d.map Prod.fst := by
  unfold lbAdd
  rw [List.map_map]
  apply List.map_congr_left
  intro p hp
  simp only [Function.comp]
  split <;> simp_all

theorem lbSetdefault_keys (d : List (String × ℚ)) (k : String) (x : String) :
    x ∈ (lbSetdefault d k).map Prod.fst ↔ x ∈ d.map Prod.fst ∨ x = k := by
  unfold lbSetdefault
  split
  next h =>
    simp only [List.any_eq_true, decide_eq_true_eq] at h
    obtain ⟨p, hp, hpk⟩ := h
    constructor
    · exact fun hx => Or.inl hx
    · intro hx
      rcases hx with hx | rfl
      · exact hx
      · rw [← hpk]
        exact List.mem_map_of_mem Prod.fst hp
  next h =>
    rw [List.map_append]
    simp [List.mem_append]

theorem lbStep_keys (d : List (String × ℚ)) (s : MatchSummary) (x : String) :
    x ∈ (lbStep d s).map Prod.fst ↔
      x ∈ d.map Prod.fst ∨ x = s.player_a ∨ x = s.player_b := by
  unfold lbStep
  rw [lbAdd_keys, lbAdd_keys, lbSetdefault_keys, lbSetdefault_keys]
  tauto

theorem lb_fold_keys :
    ∀ (ms : List MatchSummary) (d : List (String × ℚ)) (x : String),
    (x ∈ (ms.foldl lbStep d).map Prod.fst ↔
      x ∈ d.map Prod.fst ∨ ∃ s ∈ ms, x = s.player_a ∨ x = s.player_b) := by
  intro ms
  induction ms with
  | nil => simp
  | cons s rest ih =>
    intro d x
    rw [List.foldl_cons, ih, lbStep_keys]
    simp only [List.mem_cons]
    constructor
    · rintro ((h | h | h) | ⟨s', hs', h⟩)
      · exact Or.inl h
      · exact Or.inr ⟨s, Or.inl rfl, Or.inl h⟩
      · exact Or.inr ⟨s, Or.inl rfl, Or.inr h⟩
      · exact Or.inr ⟨s', Or.inr hs', h⟩
    · rintro (h | ⟨s', hs' | hs', h⟩)
      · exact Or.inl (Or.inl h)
      · subst hs'
        rcases h with h | h
        · exact Or.inl (Or.inr (Or.inl h))
        · exact Or.inl (Or.inr (Or.inr h))
      · exact Or.inr ⟨s', hs', h⟩

theorem leaderboard_keys (ms : List MatchSummary) (x : String) :
    x ∈ (TournamentResults.mk ms).leaderboard.map Prod.fst ↔
      ∃ s ∈ ms, x = s.player_a ∨ x = s.player_b := by
  unfold TournamentResults.leaderboard
  rw [lb_fold_keys]
  simp

theorem displayName_congr (p q : Player σ) (hn : p.name = q.name)
    (hs : p.strat = q.strat) : p.displayName = q.displayName := by
  unfold Player.displayName
  rw [hn, hs]

theorem play_total (m : IteratedMatch σa σb) (ss : ℤ → ℕ → ℚ) (n : ℕ) (fuel : ℕ)
    (hn : m.nRounds = some n) (hcp : m.contProb = none)
    (hA : m.playerA.strat.validMoves) (hB : m.playerB.strat.validMoves)
    (hf : n + 1 ≤ fuel) :
    ∃ o log m', m.play ss fuel = some (.ok (o, log, m')) ∧
      m'.playerA.strat = m.playerA.strat ∧ m'.playerA.name = m.playerA.name ∧
      m'.playerA.displayName = m.playerA.displayName ∧
      m'.playerB.strat = m.playerB.strat ∧ m'.playerB.name = m.playerB.name ∧
      m'.playerB.displayName = m.playerB.displayName := by
  obtain ⟨log, s', hx⟩ := playAux_total m.payoffMatrix m.noise n fuel
    ⟨m.playerA.reset ss, m.playerB.reset ss, m.rng, ⟨[], [], [], []⟩, none, none, 0⟩
    hA hB (by simpa using hf)
  obtain ⟨hps, hpn, -, hqs, hqn, -⟩ :=
    playAux_pres m.payoffMatrix m.noise (some n) none fuel _ _ _ hx
  simp only [reset_strat, reset_name] at hps hpn hqs hqn
  refine ⟨buildOutcome log, log,
    { m with playerA := s'.pa, playerB := s'.pb, rng := s'.rng }, ?_, hps, hpn,
    displayName_congr _ _ hpn hps, hqs, hqn, displayName_congr _ _ hqn hqs⟩
  rw [play_eq, hn, hcp, hx]

theorem runReps_ok (ss : ℤ → ℕ → ℚ) (ent : ℕ → ℚ) (pm : PayoffMatrix) (nz : Option Noise)
    (nR : ℕ) (tseed : Option ℤ) :
    ∀ (reps rep : ℕ) (pa pb : Player σ), pa.strat.validMoves → pb.strat.validMoves →
    ∃ ms pa' pb', runReps ss ent pm nz nR tseed reps rep pa pb = .ok (ms, pa', pb') ∧
      ms.length = reps ∧
      (∀ s ∈ ms, s.player_a = pa.displayName ∧ s.player_b = pb.displayName) ∧
      pa'.strat = pa.strat ∧ pa'.displayName = pa.displayName ∧
      pb'.strat = pb.strat ∧ pb'.displayName = pb.displayName := by
  intro reps
  induction reps with
  | zero =>
    intro rep pa pb hA hB
    exact ⟨[], pa, pb, rfl, rfl, by simp, rfl, rfl, rfl, rfl⟩
  | succ k ih =>
    intro rep pa pb hA hB
    have hinit : IteratedMatch.init pa pb (some pm) nz (some nR) none
        (repSeed tseed rep) ss ent = .ok ⟨pa, pb, pm, nz, some nR, none,
          mkRng ss ent (repSeed tseed rep)⟩ := rfl
    obtain ⟨o, log, m', hplay, hps, hpn, hpd, hqs, hqn, hqd⟩ :=
      play_total (⟨pa, pb, pm, nz, some nR, none, mkRng ss ent (repSeed tseed rep)⟩ :
        IteratedMatch σ σ) ss nR (nR + 1) rfl rfl hA hB (le_refl _)
    obtain ⟨ms, pa', pb', hrec, hlen, hnames, hps', hpd', hqs', hqd'⟩ :=
      ih (rep + 1) m'.playerA m'.playerB (by rw [hps]; exact hA) (by rw [hqs]; exact hB)
    refine ⟨⟨m'.playerA.displayName, m'.playerB.displayName, o⟩ :: ms, pa', pb',
      ?_, ?_, ?_, hps'.trans hps, hpd'.trans hpd, hqs'.trans hqs, hqd'.trans hqd⟩
    · simp only [runReps]
      rw [hinit]
      dsimp only
      rw [hplay]
      dsimp only
      rw [hrec]
    · simp [hlen]
    · intro s hs
      rcases List.mem_cons.mp hs with rfl | hs'

      · exact ⟨hpd, hqd⟩
      · obtain ⟨h1, h2⟩ := hnames s hs'
        exact ⟨h1.trans hpd, h2.trans hqd⟩

theorem runPairs_ok (ss : ℤ → ℕ → ℚ) (ent : ℕ → ℚ) (pm : PayoffMatrix)
    (nz : Option Noise) (nR : ℕ) (tseed : Option ℤ) (reps : ℕ) :
    ∀ (pairs : List (ℕ × ℕ)) (roster : List (Player σ)),
    (∀ p ∈ roster, p.strat.validMoves) →
    (∀ ij ∈ pairs, ij.1 < roster.length ∧ ij.2 < roster.length) →
    ∃ ms roster', runPairs ss ent pm nz nR tseed reps pairs roster = .ok (ms, roster') ∧
      ms.length = pairs.length * reps ∧
      roster'.map Player.displayName = roster.map Player.displayName ∧
      (∀ s ∈ ms, ∃ ij, ij ∈ pairs ∧
        (roster.map Player.displayName).get? ij.1 = some s.player_a ∧
        (roster.map Player.displayName).get? ij.2 = some s.player_b) ∧
      (1 ≤ reps → ∀ ij ∈ pairs, ∃ s, s ∈ ms ∧
        (roster.map Player.displayName).get? ij.1 = some s.player_a ∧
        (roster.map Player.displayName).get? ij.2 = some s.player_b) := by
  intro pairs
  induction pairs with
  | nil =>
    intro roster hv hbnd
    exact ⟨[], roster, rfl, by simp, rfl, by simp, by simp⟩
  | cons ij rest ih =>
    obtain ⟨i, j⟩ := ij
    intro roster hv hbnd
    obtain ⟨hi, hj⟩ := hbnd (i, j) (List.mem_cons_self _ _)
    have hga : roster.get? i = some (roster.get ⟨i, hi⟩) := List.get?_eq_get hi
    have hgb : roster.get? j = some (roster.get ⟨j, hj⟩) := List.get?_eq_get hj
    obtain ⟨ms0, pa', pb', hrr, hlen0, hnm0, hps', hpd', hqs', hqd'⟩ :=
      runReps_ok ss ent pm nz nR tseed reps 0 (roster.get ⟨i, hi⟩) (roster.get ⟨j, hj⟩)
        (hv _ (List.get_mem roster i hi)) (hv _ (List.get_mem roster j hj))
    have hv2 : ∀ p ∈ (roster.set i pa').set j pb', p.strat.validMoves := by
      apply mem_set_of
      · apply mem_set_of
        · exact hv
        · rw [hps']
          exact hv _ (List.get_mem roster i hi)
      · rw [hqs']
        exact hv _ (List.get_mem roster j hj)
    have hnames2 : ((roster.set i pa').set j pb').map Player.displayName =
        roster.map Player.displayName := by
      rw [List.map_set, List.map_set, hpd', hqd']
      rw [list_set_self _ i _ (by rw [List.get?_map, hga]; rfl)]
      rw [list_set_self _ j _ (by rw [List.get?_map, hgb]; rfl)]
    have hbnd2 : ∀ ij ∈ rest, ij.1 < ((roster.set i pa').set j pb').length ∧
        ij.2 < ((roster.set i pa').set j pb').length := by
      intro x hx
      rw [List.length_set, List.length_set]
      exact hbnd x (List.mem_cons_of_mem _ hx)
    obtain ⟨ms1, roster', hrec, hlen1, hnm1, hmem1, hcov1⟩ :=
      ih ((roster.set i pa').set j pb') hv2 hbnd2
    refine ⟨ms0 ++ ms1, roster', ?_, ?_, hnm1.trans hnames2, ?_, ?_⟩
    · simp only [runPairs]
      rw [hga, hgb]
      dsimp only
      rw [hrr]
      dsimp only
      rw [hrec]
    · rw [List.length_append, hlen0, hlen1, List.length_cons, Nat.succ_mul]
      omega
    · intro s hs
      rcases List.mem_append.mp hs with h0 | h1
      · obtain ⟨hna, hnb⟩ := hnm0 s h0
        exact ⟨(i, j), List.mem_cons_self _ _,
          by rw [List.get?_map, hga]; simp [hna],
          by rw [List.get?_map, hgb]; simp [hnb]⟩
      · obtain ⟨ij', hij', ha, hb'⟩ := hmem1 s h1
        rw [hnames2] at ha hb'
        exact ⟨ij', List.mem_cons_of_mem _ hij', ha, hb'⟩
    · intro hreps ij' hij'
      rcases List.mem_cons.mp hij' with rfl | hmem
      · have hne : ms0 ≠ [] := by
          intro hnil
          rw [hnil] at hlen0
          simp at hlen0
          omega
        obtain ⟨s, hs⟩ := List.exists_mem_of_ne_nil ms0 hne
        obtain ⟨hna, hnb⟩ := hnm0 s hs
        exact ⟨s, List.mem_append_left _ hs,
          by rw [List.get?_map, hga]; simp [hna],
          by rw [List.get?_map, hgb]; simp [hnb]⟩
      · obtain ⟨s, hs, ha, hb'⟩ := hcov1 hreps ij' hmem
        rw [hnames2] at ha hb'
        exact ⟨s, List.mem_append_right _ hs, ha, hb'⟩

/-- C7 counterexample: a tournament over a one-player roster runs `C(1,2)×R
= 0` matches and derives an **empty** leaderboard, while the roster's display
name set is `{ALLC}` — so "the leaderboard's key set equals the set of Player
display names" fails for `N = 1`. -/
theorem tournament_leaderboard_c7_cex :
    exceptOk (t1tournament.run ssZero entZero) = true ∧
    summaryCount (t1tournament.run ssZero entZero) = 0 ∧
    lbKeys (t1tournament.run ssZero entZero) = [] ∧
    t1tournament.players.map Player.displayName = [("ALLC")] := by
  decide

/-- C7 corrected/amended: for every roster of `N` valid-action players and
`R ≥ 1` repetitions, `run` produces exactly `C(N,2) × R` MatchSummary
entries; the leaderboard's key set equals the set of roster display names
whenever `N ≥ 2`, while for `N ≤ 1` the leaderboard is empty (even though the
roster may have a display name). -/
theorem tournament_leaderboard_c7 :
    ∀ (σ : Type) (ss : ℤ → ℕ → ℚ) (ent : ℕ → ℚ) (t : RoundRobinTournament σ),
    (∀ p ∈ t.players, p.strat.validMoves) → 1 ≤ t.repetitions →
    ∃ res, t.run ss ent = .ok res ∧
      res.matchList.length = (t.players.length).choose 2 * t.repetitions ∧
      (2 ≤ t.players.length →
        ∀ x, x ∈ res.leaderboard.map Prod.fst ↔ ∃ p ∈ t.players, p.displayName = x) ∧
      (t.players.length ≤ 1 → res.leaderboard = []) := by
  intro σ ss ent t hv hr
  obtain ⟨ms, roster', hrun, hlen, hnm, hmem, hcov⟩ :=
    runPairs_ok ss ent t.payoffMatrix t.noise t.nRounds t.seed t.repetitions
      (pairsIdx t.players.length) t.players hv
      (fun ij hij => by
        obtain ⟨i, j⟩ := ij
        have h := (pairsIdx_mem t.players.length i j).mp hij
        exact ⟨by omega, h.2⟩)
  refine ⟨⟨ms⟩, ?_, ?_, ?_, ?_⟩
  · simp only [RoundRobinTournament.run]
    rw [hrun]
  · show ms.length = _
    rw [hlen, pairsIdx_length]
  · intro h2 x
    show x ∈ (TournamentResults.mk ms).leaderboard.map Prod.fst ↔ _
    rw [leaderboard_keys]
    constructor
    · rintro ⟨s, hs, hx⟩
      obtain ⟨ij, hij, ha, hb⟩ := hmem s hs
      obtain ⟨i, j⟩ := ij
      rcases hx with rfl | rfl
      · have hmm := List.get?_mem ha
        rw [List.mem_map] at hmm
        exact hmm
      · have hmm := List.get?_mem hb
        rw [List.mem_map] at hmm
        exact hmm
    · rintro ⟨p, hp, rfl⟩
      obtain ⟨⟨k, hk⟩, rfl⟩ := List.mem_iff_get.mp hp
      by_cases hk0 : k = 0
      · subst hk0
        have hpair : (0, 1) ∈ pairsIdx t.players.length :=
          (pairsIdx_mem _ 0 1).mpr ⟨by omega, by omega⟩
        obtain ⟨s, hs, ha, hb⟩ := hcov hr (0, 1) hpair
        refine ⟨s, hs, Or.inl ?_⟩
        rw [List.get?_map, List.get?_eq_get hk] at ha
        simpa using ha
      · have hpair : (0, k) ∈ pairsIdx t.players.length :=
          (pairsIdx_mem _ 0 k).mpr ⟨by omega, hk⟩
        obtain ⟨s, hs, ha, hb⟩ := hcov hr (0, k) hpair
        refine ⟨s, hs, Or.inr ?_⟩
        rw [List.get?_map, List.get?_eq_get hk] at hb
        simpa using hb
  · intro h1
    have hms : ms = [] := List.length_eq_zero.mp (by
      rw [hlen, pairsIdx_length, Nat.choose_eq_zero_of_lt (by omega), Nat.zero_mul])
    show (TournamentResults.mk ms).leaderboard = []
    rw [hms]
    rfl

/-- C7 witness: the corrected statement on a concrete two-player roster. -/
theorem tournament_leaderboard_c7_witness :
    ∃ res, t2tournament.run ssZero entZero = .ok res ∧
      res.matchList.length =
        (t2tournament.players.length).choose 2 * t2tournament.repetitions ∧
      (2 ≤ t2tournament.players.length →
        ∀ x, x ∈ res.leaderboard.map Prod.fst ↔
          ∃ p ∈ t2tournament.players, p.displayName = x) ∧
      (t2tournament.players.length ≤ 1 → res.leaderboard = []) := by
  apply tournament_leaderboard_c7 Unit ssZero entZero t2tournament
  · intro p hp
    rcases List.mem_cons.mp hp with rfl | hp'
    · exact ⟨fun st rng => Or.inl rfl, fun st ml ol rng => Or.inl rfl⟩
    · rcases List.mem_cons.mp hp' with rfl | h
      · exact ⟨fun st rng => Or.inl rfl, fun st ml ol rng => Or.inl rfl⟩
      · simp at h
  · exact Nat.le.refl

end PD
